import Mathlib

/-!
# Verification of the Mobile-Robotics navigation toolbox core

Shallow embedding of the simulation core of the repository
(`nav-toolbox`): the math helpers and `wrapPi` angle normalization,
the Bidirectionality belief-filter tick, the `Limitations` demo
sequencer, and the A* pathfinder `findPath`, together with proofs of
the behavioural properties claimed for them.

Real-number (`ℝ`) arithmetic idealizes JavaScript floats; `WithTop ℝ`
models `Infinity` in the pathfinder score maps.
-/

noncomputable section

namespace NavToolbox

open Real

/-! ## Math helpers (source: part_001 helpers, astar.js) -/

/-- `clamp(v, lo, hi)` from the source: `Math.max(lo, Math.min(hi, v))`. -/
def clamp (v lo hi : ℝ) : ℝ := max lo (min hi v)

/-- JS `Math.hypot(a, b) = sqrt(a² + b²)`. -/
def hypot (a b : ℝ) : ℝ := Real.sqrt (a ^ 2 + b ^ 2)

/-- JS `Math.atan2(y, x)` (branches of the IEEE definition on reals,
signed zeros ignored). -/
def atan2 (y x : ℝ) : ℝ :=
  if 0 < x then arctan (y / x)
  else if x < 0 then
    (if 0 ≤ y then arctan (y / x) + π else arctan (y / x) - π)
  else
    (if 0 < y then π / 2 else if y < 0 then -π / 2 else 0)

/-- First loop of `wrapPi`: `while (a > Math.PI) a -= 2 * Math.PI;`. -/
def wrapDown (a : ℝ) : ℝ :=
  if h : π < a then wrapDown (a - 2 * π) else a
termination_by (⌈(a - π) / (2 * π)⌉).toNat
decreasing_by
  have h2π : (0:ℝ) < 2 * π := by positivity
  have hpos : 0 < (a - π) / (2 * π) := div_pos (by linarith) h2π
  have hc : 0 < ⌈(a - π) / (2 * π)⌉ := Int.ceil_pos.mpr hpos
  have harg : (a - 2 * π - π) / (2 * π) = (a - π) / (2 * π) - 1 := by
    field_simp
    ring
  rw [harg, Int.ceil_sub_one]
  exact (Int.toNat_lt_toNat hc).mpr (by omega)

/-- Second loop of `wrapPi`: `while (a < -Math.PI) a += 2 * Math.PI;`. -/
def wrapUp (a : ℝ) : ℝ :=
  if h : a < -π then wrapUp (a + 2 * π) else a
termination_by (⌈(-π - a) / (2 * π)⌉).toNat
decreasing_by
  have h2π : (0:ℝ) < 2 * π := by positivity
  have hpos : 0 < (-π - a) / (2 * π) := div_pos (by linarith) h2π
  have hc : 0 < ⌈(-π - a) / (2 * π)⌉ := Int.ceil_pos.mpr hpos
  have harg : (-π - (a + 2 * π)) / (2 * π) = (-π - a) / (2 * π) - 1 := by
    field_simp
    ring
  rw [harg, Int.ceil_sub_one]
  exact (Int.toNat_lt_toNat hc).mpr (by omega)

/-- `wrapPi(a)`: first loop shifts down, second loop shifts up. -/
def wrapPi (a : ℝ) : ℝ := wrapUp (wrapDown a)

/-- `angleDiff(a, b) = wrapPi(a - b)`. -/
def angleDiff (a b : ℝ) : ℝ := wrapPi (a - b)

/-! ### Facts about `wrapDown` / `wrapUp` / `wrapPi` -/

theorem wrapDown_of_le {a : ℝ} (h : a ≤ π) : wrapDown a = a := by
  rw [wrapDown]
  exact dif_neg (not_lt.mpr h)

theorem wrapUp_of_ge {a : ℝ} (h : -π ≤ a) : wrapUp a = a := by
  rw [wrapUp]
  exact dif_neg (not_lt.mpr h)

theorem wrapDown_le (a : ℝ) : wrapDown a ≤ π := by
  induction a using wrapDown.induct with
  | case1 a h ih => rwa [wrapDown, dif_pos h]
  | case2 a h => rw [wrapDown, dif_neg h]; exact not_lt.mp h

theorem wrapDown_lb {a : ℝ} (h : -π < a) : -π < wrapDown a := by
  induction a using wrapDown.induct with
  | case1 a h1 ih =>
    rw [wrapDown, dif_pos h1]
    exact ih (by nlinarith [pi_pos])
  | case2 a h1 => rwa [wrapDown, dif_neg h1]

theorem wrapUp_ge (a : ℝ) : -π ≤ wrapUp a := by
  induction a using wrapUp.induct with
  | case1 a h ih => rwa [wrapUp, dif_pos h]
  | case2 a h => rw [wrapUp, dif_neg h]; exact not_lt.mp h

theorem wrapUp_ub {a : ℝ} (h : a ≤ π) : wrapUp a ≤ π := by
  induction a using wrapUp.induct with
  | case1 a h1 ih =>
    rw [wrapUp, dif_pos h1]
    exact ih (by nlinarith [pi_pos])
  | case2 a h1 => rwa [wrapUp, dif_neg h1]

theorem wrapDown_congruent (a : ℝ) : ∃ k : ℤ, wrapDown a = a - 2 * π * k := by
  induction a using wrapDown.induct with
  | case1 a h ih =>
    obtain ⟨k, hk⟩ := ih
    refine ⟨k + 1, ?_⟩
    rw [wrapDown, dif_pos h, hk]
    push_cast
    ring
  | case2 a h => exact ⟨0, by rw [wrapDown, dif_neg h]; push_cast; ring⟩

theorem wrapUp_congruent (a : ℝ) : ∃ k : ℤ, wrapUp a = a + 2 * π * k := by
  induction a using wrapUp.induct with
  | case1 a h ih =>
    obtain ⟨k, hk⟩ := ih
    refine ⟨k + 1, ?_⟩
    rw [wrapUp, dif_pos h, hk]
    push_cast
    ring
  | case2 a h => exact ⟨0, by rw [wrapUp, dif_neg h]; push_cast; ring⟩

theorem wrapPi_mem_Icc (a : ℝ) : wrapPi a ∈ Set.Icc (-π) π :=
  ⟨wrapUp_ge _, wrapUp_ub (wrapDown_le a)⟩

theorem wrapPi_congruent (a : ℝ) : ∃ k : ℤ, wrapPi a = a + 2 * π * k := by
  obtain ⟨k₁, hk₁⟩ := wrapDown_congruent a
  obtain ⟨k₂, hk₂⟩ := wrapUp_congruent (wrapDown a)
  refine ⟨k₂ - k₁, ?_⟩
  rw [wrapPi, hk₂, hk₁]
  push_cast
  ring

/-- On the open interval the function is the identity. -/
theorem wrapPi_of_mem {a : ℝ} (h₁ : -π ≤ a) (h₂ : a ≤ π) : wrapPi a = a := by
  rw [wrapPi, wrapDown_of_le h₂, wrapUp_of_ge h₁]

theorem wrapPi_zero : wrapPi 0 = 0 :=
  wrapPi_of_mem (by linarith [pi_pos]) (le_of_lt pi_pos)

/-- If `a` is not congruent to `π` mod `2π` then `wrapPi a` lies in the
open interval `(-π, π)`. -/
theorem wrapPi_mem_Ioo {a : ℝ} (h : ∀ m : ℤ, a ≠ π + 2 * π * m) :
    wrapPi a ∈ Set.Ioo (-π) π := by
  obtain ⟨hlb, hub⟩ := wrapPi_mem_Icc a
  obtain ⟨k, hk⟩ := wrapPi_congruent a
  constructor
  · rcases lt_or_eq_of_le hlb with h' | h'
    · exact h'
    · exfalso
      apply h (-(k + 1))
      have : a = -π - 2 * π * k := by rw [← h'] at hk; linarith
      rw [this]
      push_cast
      ring
  · rcases lt_or_eq_of_le hub with h' | h'
    · exact h'
    · exfalso
      apply h (-k)
      have : a = π - 2 * π * k := by rw [h'] at hk; linarith
      rw [this]
      push_cast
      ring

/-- Two values in `(-π, π)` congruent mod `2π` are equal. -/
theorem wrapPi_eq_of_congruent {x y : ℝ} (hx : x ∈ Set.Ioo (-π) π)
    (hy : y ∈ Set.Ioo (-π) π) (k : ℤ) (h : x = y + 2 * π * k) : x = y := by
  have hπ := pi_pos
  have hk0 : (k : ℝ) = 0 := by
    by_contra hk
    have h1 : (1:ℝ) ≤ |(k:ℝ)| := by
      have : k ≠ 0 := by exact_mod_cast fun h0 => hk (by rw [h0]; norm_num)
      exact_mod_cast Int.one_le_abs (by omega)
    have h2 : |x - y| = 2 * π * |(k:ℝ)| := by
      rw [h]
      rw [show y + 2 * π * k - y = 2 * π * (k:ℝ) by ring]
      rw [abs_mul]
      rw [abs_of_pos (by positivity)]
    have h3 : |x - y| < 2 * π := by
      rw [abs_sub_lt_iff]
      constructor <;> [skip; skip] <;>
        · obtain ⟨hx1, hx2⟩ := hx
          obtain ⟨hy1, hy2⟩ := hy
          linarith
    nlinarith
  have : x = y + 2 * π * 0 := by rw [← hk0]; exact h
  linarith

/-- C3 as the spec states it (interval `(-π, π]` plus unconditional
2π-periodicity); shown false below at `a = -π`. -/
def C3_claim : Prop :=
  (∀ a : ℝ, wrapPi a ∈ Set.Ioc (-π) π) ∧
    (∀ (a : ℝ) (k : ℤ), wrapPi (a + 2 * π * k) = wrapPi a)

theorem wrapPi_neg_pi : wrapPi (-π) = -π :=
  wrapPi_of_mem le_rfl (by linarith [pi_pos])

theorem wrapPi_pi : wrapPi π = π :=
  wrapPi_of_mem (by linarith [pi_pos]) le_rfl

/-- C3 (counterexample): at `a = -π` the result `-π` is outside the
claimed half-open interval `(-π, π]`, and the 2π-shift `a + 2π·1 = π`
maps to `π ≠ -π`, so periodicity also fails on this boundary class. -/
theorem C3_wrapPi_claim_false : ¬ C3_claim := by
  intro ⟨h1, h2⟩
  have hmem := h1 (-π)
  rw [wrapPi_neg_pi] at hmem
  exact lt_irrefl _ hmem.1

/-- C3 (amended): `wrapPi a` always lies in the closed interval
`[-π, π]`, and whenever `a` is not congruent to `π` modulo `2π` it lies
in the open interval `(-π, π)` and satisfies
`wrapPi (a + 2π·k) = wrapPi a` for every integer `k`. -/
theorem C3_wrapPi_amended (a : ℝ) :
    wrapPi a ∈ Set.Icc (-π) π ∧
      ((∀ m : ℤ, a ≠ π + 2 * π * m) →
        wrapPi a ∈ Set.Ioo (-π) π ∧
          ∀ k : ℤ, wrapPi (a + 2 * π * k) = wrapPi a) := by
  refine ⟨wrapPi_mem_Icc a, fun h => ⟨wrapPi_mem_Ioo h, fun k => ?_⟩⟩
  have hshift : ∀ m : ℤ, a + 2 * π * k ≠ π + 2 * π * m := by
    intro m hcontra
    apply h (m - k)
    push_cast
    linarith
  have hx := wrapPi_mem_Ioo hshift
  have hy := wrapPi_mem_Ioo h
  obtain ⟨k₁, hk₁⟩ := wrapPi_congruent (a + 2 * π * k)
  obtain ⟨k₂, hk₂⟩ := wrapPi_congruent a
  refine wrapPi_eq_of_congruent hx hy (k + k₁ - k₂) ?_
  rw [hk₁, hk₂]
  push_cast
  ring

/-- C3 amended, instantiated at `a = 1` with the congruence side
condition discharged concretely. -/
theorem C3_wrapPi_amended_witness :
    (∀ m : ℤ, (1:ℝ) ≠ π + 2 * π * m) ∧
      (wrapPi 1 ∈ Set.Icc (-π) π ∧
        ((∀ m : ℤ, (1:ℝ) ≠ π + 2 * π * m) →
          wrapPi 1 ∈ Set.Ioo (-π) π ∧
            ∀ k : ℤ, wrapPi (1 + 2 * π * k) = wrapPi 1)) := by
  have hside : ∀ m : ℤ, (1:ℝ) ≠ π + 2 * π * m := by
    intro m hcontra
    have hπ3 : (3:ℝ) < π := pi_gt_three
    have h1 : π * (1 + 2 * (m:ℝ)) = 1 := by linarith [hcontra]
    rcases le_or_lt 0 m with hm | hm
    · have hm' : (0:ℝ) ≤ (m:ℝ) := by exact_mod_cast hm
      nlinarith
    · have hm1 : m ≤ -1 := by omega
      have hm' : (m:ℝ) ≤ -1 := by exact_mod_cast hm1
      nlinarith
  exact ⟨hside, C3_wrapPi_amended 1⟩

/-! ## Demo sequencer (source: Limitations.js, `Level2Auto`) -/

/-- One phase descriptor of `DEMO_SEQUENCE` (display-only fields
omitted). -/
structure DemoStep where
  duration : ℝ
  phase : String
  mode : String
  resetOnEnter : Bool

def dummyStep : DemoStep := ⟨0, "", "", false⟩

/-- The scripted timeline of the `Limitations` panel. -/
def DEMO_SEQUENCE : List DemoStep :=
  [⟨1.8, "IDLE", "ODOMETRY", false⟩,
   ⟨7.0, "OUTBOUND", "ODOMETRY", true⟩,
   ⟨7.0, "RETURN", "ODOMETRY", false⟩,
   ⟨2.2, "HOLD", "ODOMETRY", false⟩,
   ⟨1.4, "RESET", "ODOMETRY", false⟩,
   ⟨6.0, "OUTBOUND", "COMPASS", true⟩,
   ⟨6.2, "RETURN", "COMPASS", false⟩,
   ⟨1.8, "HOLD", "COMPASS", false⟩,
   ⟨1.4, "RESET", "COMPASS", false⟩,
   ⟨7.2, "OUTBOUND", "LANDMARK", true⟩,
   ⟨9.0, "RETURN", "LANDMARK", false⟩,
   ⟨2.0, "HOLD", "LANDMARK", false⟩,
   ⟨1.2, "RESET", "LANDMARK", false⟩]

/-- The sequencer-cursor update at the top of the `Level2Auto` game
loop: clamp the raw delta, accumulate `t`, and advance to
`(idx + 1) % length` with `t := 0` once `t` exceeds the current
phase's duration. -/
def seqStep (dtRaw : ℝ) (s : ℕ × ℝ) : ℕ × ℝ :=
  let dt := clamp (if 1 < dtRaw then dtRaw / 1000 else dtRaw) 0 0.05
  let t := s.2 + dt
  let cur := DEMO_SEQUENCE.getD s.1 dummyStep
  if cur.duration < t then ((s.1 + 1) % DEMO_SEQUENCE.length, 0) else (s.1, t)

theorem clamp_of_mem {v lo hi : ℝ} (h1 : lo ≤ v) (h2 : v ≤ hi) :
    clamp v lo hi = v := by
  rw [clamp, min_eq_right h2, max_eq_right h1]

theorem seqStep_eq (dt : ℝ) (h0 : 0 ≤ dt) (h5 : dt ≤ 0.05) (s : ℕ × ℝ) :
    seqStep dt (s.1, s.2) =
      if (DEMO_SEQUENCE.getD s.1 dummyStep).duration < s.2 + dt then
        ((s.1 + 1) % DEMO_SEQUENCE.length, 0)
      else (s.1, s.2 + dt) := by
  have hno : ¬ (1:ℝ) < dt := not_lt.mpr (by linarith)
  simp only [seqStep, if_neg hno, clamp_of_mem h0 h5]

/-- While `(k+1)·dt` has not yet exceeded the phase duration `n·dt`,
the cursor stays in phase `i` accumulating exact multiples of `dt`. -/
theorem seqIter_stay (i n : ℕ) (dt : ℝ) (h0 : 0 < dt) (h5 : dt ≤ 0.05)
    (hdur : (DEMO_SEQUENCE.getD i dummyStep).duration = n * dt) :
    ∀ k, k ≤ n → (seqStep dt)^[k] (i, 0) = (i, k * dt) := by
  intro k
  induction k with
  | zero => intro _; simp
  | succ k ih =>
    intro hk
    rw [Function.iterate_succ_apply', ih (by omega)]
    rw [seqStep_eq dt (le_of_lt h0) h5 (i, k * dt)]
    have hcmp : ¬ (DEMO_SEQUENCE.getD i dummyStep).duration < k * dt + dt := by
      rw [hdur]
      push_neg
      have : ((k:ℝ) + 1) ≤ n := by exact_mod_cast hk
      nlinarith
    rw [if_neg hcmp]
    push_cast
    ring_nf

/-- Crossing one whole phase: from `(i, 0)`, after `n + 1` ticks of
size `dt` (where the phase duration is exactly `n·dt`), the cursor is
at `((i+1) % 13, 0)`. -/
theorem seqIter_phase (i n j : ℕ) (dt : ℝ) (h0 : 0 < dt) (h5 : dt ≤ 0.05)
    (hdur : (DEMO_SEQUENCE.getD i dummyStep).duration = n * dt)
    (hj : (i + 1) % DEMO_SEQUENCE.length = j) :
    (seqStep dt)^[n + 1] (i, 0) = (j, 0) := by
  rw [Function.iterate_succ_apply', seqIter_stay i n dt h0 h5 hdur n le_rfl]
  rw [seqStep_eq dt (le_of_lt h0) h5 (i, n * dt)]
  have hcmp : (DEMO_SEQUENCE.getD i dummyStep).duration < n * dt + dt := by
    rw [hdur]; linarith
  rw [if_pos hcmp, hj]

theorem seqChain {f : ℕ × ℝ → ℕ × ℝ} {s s' s'' : ℕ × ℝ} (m n : ℕ)
    (h1 : f^[n] s = s') (h2 : f^[m] s' = s'') : f^[m + n] s = s'' := by
  rw [Function.iterate_add_apply, h1, h2]

theorem seq_full_cycle :
    (seqStep (1/20))^[1097] (0, 0) = (0, 0) := by
  have h0 : (0:ℝ) < 1/20 := by norm_num
  have h5 : (1/20:ℝ) ≤ 0.05 := by norm_num
  have p0 := seqIter_phase 0 36 1 (1/20) h0 h5
    (by norm_num [DEMO_SEQUENCE]) (by norm_num [DEMO_SEQUENCE])
  have p1 := seqIter_phase 1 140 2 (1/20) h0 h5
    (by norm_num [DEMO_SEQUENCE]) (by norm_num [DEMO_SEQUENCE])
  have p2 := seqIter_phase 2 140 3 (1/20) h0 h5
    (by norm_num [DEMO_SEQUENCE]) (by norm_num [DEMO_SEQUENCE])
  have p3 := seqIter_phase 3 44 4 (1/20) h0 h5
    (by norm_num [DEMO_SEQUENCE]) (by norm_num [DEMO_SEQUENCE])
  have p4 := seqIter_phase 4 28 5 (1/20) h0 h5
    (by norm_num [DEMO_SEQUENCE]) (by norm_num [DEMO_SEQUENCE])
  have p5 := seqIter_phase 5 120 6 (1/20) h0 h5
    (by norm_num [DEMO_SEQUENCE]) (by norm_num [DEMO_SEQUENCE])
  have p6 := seqIter_phase 6 124 7 (1/20) h0 h5
    (by norm_num [DEMO_SEQUENCE]) (by norm_num [DEMO_SEQUENCE])
  have p7 := seqIter_phase 7 36 8 (1/20) h0 h5
    (by norm_num [DEMO_SEQUENCE]) (by norm_num [DEMO_SEQUENCE])
  have p8 := seqIter_phase 8 28 9 (1/20) h0 h5
    (by norm_num [DEMO_SEQUENCE]) (by norm_num [DEMO_SEQUENCE])
  have p9 := seqIter_phase 9 144 10 (1/20) h0 h5
    (by norm_num [DEMO_SEQUENCE]) (by norm_num [DEMO_SEQUENCE])
  have p10 := seqIter_phase 10 180 11 (1/20) h0 h5
    (by norm_num [DEMO_SEQUENCE]) (by norm_num [DEMO_SEQUENCE])
  have p11 := seqIter_phase 11 40 12 (1/20) h0 h5
    (by norm_num [DEMO_SEQUENCE]) (by norm_num [DEMO_SEQUENCE])
  have p12 := seqIter_phase 12 24 0 (1/20) h0 h5
    (by norm_num [DEMO_SEQUENCE]) (by norm_num [DEMO_SEQUENCE])
  have c1 := seqChain 141 37 p0 p1
  have c2 := seqChain 141 178 c1 p2
  have c3 := seqChain 45 319 c2 p3
  have c4 := seqChain 29 364 c3 p4
  have c5 := seqChain 121 393 c4 p5
  have c6 := seqChain 125 514 c5 p6
  have c7 := seqChain 37 639 c6 p7
  have c8 := seqChain 29 676 c7 p8
  have c9 := seqChain 145 705 c8 p9
  have c10 := seqChain 181 850 c9 p10
  have c11 := seqChain 41 1031 c10 p11
  have c12 := seqChain 25 1072 c11 p12
  exact c12

/-- C8: the sequencer advances to `(index+1) mod length` with elapsed
reset to `0` exactly when accumulated elapsed time exceeds the current
phase's duration; consequently, with `dt = 1/20 s` ticks, after total
simulated time `54.9 = (d1+⋯+d13) + ε` (with `ε = 0.7`) the cursor is
back at phase index `0`, its elapsed time matching `ε` up to the
discretization bound `N·dt`. -/
theorem C8_sequencer :
    (∀ (dt : ℝ) (i : ℕ) (t : ℝ), 0 ≤ dt → dt ≤ 0.05 →
      seqStep dt (i, t) =
        if (DEMO_SEQUENCE.getD i dummyStep).duration < t + dt then
          ((i + 1) % DEMO_SEQUENCE.length, 0)
        else (i, t + dt)) ∧
    ((seqStep (1/20))^[1098] (0, 0) = (0, 1/20) ∧
      1098 * (1/20 : ℝ) =
        (DEMO_SEQUENCE.map DemoStep.duration).sum + 7/10 ∧
      |(1/20 : ℝ) - 7/10| ≤ (DEMO_SEQUENCE.length : ℝ) * (1/20)) := by
  refine ⟨fun dt i t h0 h5 => seqStep_eq dt h0 h5 (i, t), ?_, ?_, ?_⟩
  · have hstep : (seqStep (1/20))^[1] (0, 0) = ((0:ℕ), (1/20:ℝ)) := by
      rw [Function.iterate_one]
      rw [seqStep_eq (1/20) (by norm_num) (by norm_num) (0, 0)]
      norm_num [DEMO_SEQUENCE]
    exact seqChain 1 1097 seq_full_cycle hstep
  · norm_num [DEMO_SEQUENCE]
  · norm_num [DEMO_SEQUENCE, abs_le]

/-- C8, instantiated: the transition-rule equation evaluated at a
concrete tick, with both side conditions discharged numerically. -/
theorem C8_sequencer_witness :
    (0:ℝ) ≤ 1/20 ∧ (1/20:ℝ) ≤ 0.05 ∧
      seqStep (1/20) (0, 1.8) =
        (if (DEMO_SEQUENCE.getD 0 dummyStep).duration < 1.8 + 1/20 then
          ((0 + 1) % DEMO_SEQUENCE.length, 0)
        else (0, 1.8 + 1/20)) :=
  ⟨by norm_num, by norm_num,
    C8_sequencer.1 (1/20) 0 1.8 (by norm_num) (by norm_num)⟩

/-! ## Bidirectionality panel (source: part_001) -/

/-- World constants of the Bidirectionality panel. -/
def WORLD_W : ℝ := 400

def WORLD_H : ℝ := 300

structure Pt where
  x : ℝ
  y : ℝ

/-- Landmark 1. -/
def L1 : Pt := ⟨340, 80⟩

/-- Landmark 2. -/
def L2 : Pt := ⟨340, 220⟩

/-- Vantage region centre. -/
def VANTAGE : Pt := ⟨200, 150⟩

/-- Disambiguation beacon. -/
def BEACON : Pt := ⟨320, 60⟩

structure Robot where
  x : ℝ
  y : ℝ
  theta : ℝ

/-- Starting pose. -/
def START : Robot := ⟨60, 150, 0⟩

def SHIFT_Y : ℝ := 140

def V_SENSE_RADIUS : ℝ := 55

def CONF_THRESH : ℝ := 0.40

def SPEED : ℝ := 90

def TURN_RATE : ℝ := 3.5

def STUB_DITHER_PERIOD : ℝ := 1.6

def SENSE_PERIOD : ℝ := 0.35

def ALPHA : ℝ := 0.70

inductive PriorMode
  | WEAK
  | STRONG_CORRECT
  | STRONG_WRONG
deriving DecidableEq

inductive SimMode
  | BIDIR
  | STUBBORN
deriving DecidableEq

/-- The measurement record stored in `measRef` / `measInfo`. -/
structure Meas where
  meas : ℝ
  sigma : ℝ
  pred1 : ℝ
  pred2 : ℝ
  err1 : ℝ
  err2 : ℝ
  winner : String
  inVantage : Bool

/-- The mutable state of the Bidirectionality simulation (the refs of
the component). -/
structure SimState where
  priorMode : PriorMode
  simMode : SimMode
  running : Bool
  robot : Robot
  belief : ℝ × ℝ
  action : String
  measInfo : Option Meas
  elapsed : ℝ
  senseTimer : ℝ
  stubTimer : ℝ
  stubSide : ℕ

def computeInitialBelief : PriorMode → ℝ × ℝ
  | .WEAK => (0.5, 0.5)
  | .STRONG_CORRECT => (0.9, 0.1)
  | .STRONG_WRONG => (0.1, 0.9)

/-- `reset(newPrior, newSimMode)`; `coin` models the
`Math.random() < 0.5` draw deciding the initial dither side. -/
def resetState (p : PriorMode) (m : SimMode) (coin : Bool) : SimState :=
  { priorMode := p, simMode := m, running := false, robot := START,
    belief := computeInitialBelief p, action := "IDLE", measInfo := none,
    elapsed := 0, senseTimer := 0, stubTimer := 0,
    stubSide := if coin then 0 else 1 }

/-- TOP-DOWN section of the game loop: select the motion target and
action label; in STUBBORN mode with a WEAK prior this also advances
the dither timer/side.  Returns
`(target, nextAction, stubTimer', stubSide')`. -/
def chooseTarget (s : SimState) (dt : ℝ) : Pt × String × ℝ × ℕ :=
  match s.simMode with
  | .BIDIR =>
    if CONF_THRESH ≤ |s.belief.1 - s.belief.2| then
      if s.belief.2 ≤ s.belief.1 then
        (L1, "GO_TO_L1 (belief commit)", s.stubTimer, s.stubSide)
      else
        (L2, "GO_TO_L2 (belief commit)", s.stubTimer, s.stubSide)
    else
      (VANTAGE, "GO_TO_V (active localization)", s.stubTimer, s.stubSide)
  | .STUBBORN =>
    match s.priorMode with
    | .STRONG_CORRECT => (L1, "GO_TO_L1 (stubborn prior)", s.stubTimer, s.stubSide)
    | .STRONG_WRONG => (L2, "GO_TO_L2 (stubborn prior)", s.stubTimer, s.stubSide)
    | .WEAK =>
      let st := s.stubTimer + dt
      let p : ℝ × ℕ :=
        if STUB_DITHER_PERIOD < st then (0, 1 - s.stubSide) else (st, s.stubSide)
      ((if p.2 = 0 then L1 else L2), "DITHER (weak prior; no updates)", p.1, p.2)

/-- MOVE section: turn-rate-limited steering plus world clamp; no
motion within `2.5` units of the target. -/
def moveStep (r : Robot) (target : Pt) (dt : ℝ) : Robot :=
  let dx := target.x - r.x
  let dy := target.y - r.y
  let dist := hypot dx dy
  if 2.5 < dist then
    let desired := atan2 dy dx
    let dth := angleDiff desired r.theta
    let step := clamp dth (-(TURN_RATE * dt)) (TURN_RATE * dt)
    let theta := wrapPi (r.theta + step)
    let x := r.x + Real.cos theta * (SPEED * dt)
    let y := r.y + Real.sin theta * (SPEED * dt)
    ⟨clamp x 10 (WORLD_W - 10), clamp y 10 (WORLD_H - 10), theta⟩
  else r

/-- The measurement block executed on a sense event at (post-move)
pose `r`, with `noise` the value drawn from `randn()`. -/
def senseMeas (r : Robot) (noise : ℝ) : Meas :=
  let dV := hypot (VANTAGE.x - r.x) (VANTAGE.y - r.y)
  let sigma := clamp (0.045 + 0.15 * (dV / V_SENSE_RADIUS)) 0.045 0.20
  let trueBear := wrapPi (atan2 (BEACON.y - r.y) (BEACON.x - r.x) - r.theta)
  let meas := wrapPi (trueBear + noise * sigma)
  let pred1 := wrapPi (atan2 (BEACON.y - r.y) (BEACON.x - r.x) - r.theta)
  let ghostY := clamp (r.y + SHIFT_Y) 10 (WORLD_H - 10)
  let pred2 := wrapPi (atan2 (BEACON.y - ghostY) (BEACON.x - r.x) - r.theta)
  let err1 := |angleDiff meas pred1|
  let err2 := |angleDiff meas pred2|
  let winner := if err1 ≤ err2 then "H1 (Near L1)" else "H2 (Near L2)"
  ⟨meas, sigma, pred1, pred2, err1, err2, winner,
    if dV ≤ V_SENSE_RADIUS then true else false⟩

/-- The tempered likelihood weights `(w1·lh1^α, w2·lh2^α)` computed
from a measurement record. -/
def temperedWeights (b : ℝ × ℝ) (m : Meas) : ℝ × ℝ :=
  (b.1 * Real.exp (-0.5 * (m.err1 / m.sigma) * (m.err1 / m.sigma)) ^ ALPHA,
   b.2 * Real.exp (-0.5 * (m.err2 / m.sigma) * (m.err2 / m.sigma)) ^ ALPHA)

/-- Belief update: renormalize the tempered weights, skipping the
update entirely when the pre-normalization sum is not above `1e-9`. -/
def beliefUpdate (b : ℝ × ℝ) (m : Meas) : ℝ × ℝ :=
  let nw := temperedWeights b m
  let s := nw.1 + nw.2
  if 1e-9 < s then (nw.1 / s, nw.2 / s) else b

/-- One game-loop invocation's inputs: the raw millisecond delta and
the oracle values for the two random draws that the loop body can
make (`randn()` in the measurement, `Math.random()` in `reset`). -/
structure TickIn where
  dtMs : ℝ
  noise : ℝ
  coin : Bool

def tickDt (inp : TickIn) : ℝ := inp.dtMs / 1000

/-- The running/timestep guard at the top of the loop body. -/
def tickRuns (s : SimState) (inp : TickIn) : Prop :=
  s.running = true ∧ ¬(tickDt inp ≤ 0 ∨ 0.25 < tickDt inp)

def tickChoose (s : SimState) (inp : TickIn) : Pt × String × ℝ × ℕ :=
  chooseTarget s (tickDt inp)

/-- Post-move robot pose of the tick. -/
def tickRobot (s : SimState) (inp : TickIn) : Robot :=
  moveStep s.robot (tickChoose s inp).1 (tickDt inp)

/-- The `shouldSense` gate (evaluated after the move):
`allowBottomUp && senseTimer >= SENSE_PERIOD && (mode === BIDIR && inVantage)`. -/
def tickDoSense (s : SimState) (inp : TickIn) : Prop :=
  s.simMode ≠ SimMode.STUBBORN ∧
    SENSE_PERIOD ≤ s.senseTimer + tickDt inp ∧
    (s.simMode = SimMode.BIDIR ∧
      hypot (VANTAGE.x - (tickRobot s inp).x) (VANTAGE.y - (tickRobot s inp).y) ≤
        V_SENSE_RADIUS)

/-- A sense event: the guard passes and the sensing gate holds. -/
def tickSenses (s : SimState) (inp : TickIn) : Prop :=
  tickRuns s inp ∧ tickDoSense s inp

def tickMeas (s : SimState) (inp : TickIn) : Meas :=
  senseMeas (tickRobot s inp) inp.noise

/-- Pre-normalization likelihood-weighted sum of the tick's sense
event. -/
def tickSum (s : SimState) (inp : TickIn) : ℝ :=
  (temperedWeights s.belief (tickMeas s inp)).1 +
    (temperedWeights s.belief (tickMeas s inp)).2

instance (s : SimState) (inp : TickIn) : Decidable (tickDoSense s inp) := by
  unfold tickDoSense
  infer_instance

/-- One invocation of the `useGameLoop` callback of the
Bidirectionality component. -/
def tick (s : SimState) (inp : TickIn) : SimState :=
  if s.running = false then s
  else if tickDt inp ≤ 0 ∨ 0.25 < tickDt inp then s
  else
    let s' :=
      if tickDoSense s inp then
        { s with
          robot := tickRobot s inp
          belief := beliefUpdate s.belief (tickMeas s inp)
          action := (tickChoose s inp).2.1
          measInfo := some (tickMeas s inp)
          senseTimer := 0
          stubTimer := (tickChoose s inp).2.2.1
          stubSide := (tickChoose s inp).2.2.2
          elapsed := s.elapsed + tickDt inp }
      else
        { s with
          robot := tickRobot s inp
          action := (tickChoose s inp).2.1
          measInfo := if s.simMode = SimMode.STUBBORN then none else s.measInfo
          senseTimer := s.senseTimer + tickDt inp
          stubTimer := (tickChoose s inp).2.2.1
          stubSide := (tickChoose s inp).2.2.2
          elapsed := s.elapsed + tickDt inp }
    if 28 < s'.elapsed then resetState s.priorMode s.simMode inp.coin else s'

/-- The UI-level operations of the panel (tick plus the out-of-scope
mutators that can run between ticks). -/
inductive Act
  | tick (inp : TickIn)
  | start
  | pause
  | reset (p : PriorMode) (m : SimMode) (coin : Bool)

def applyAct (s : SimState) : Act → SimState
  | .tick inp => tick s inp
  | .start => { s with running := true }
  | .pause => { s with running := false }
  | .reset p m coin => resetState p m coin

/-- States reachable from `init` through operations permitted by
`allowed`. -/
inductive Reaches (allowed : Act → Prop) (init : SimState) : SimState → Prop
  | refl : Reaches allowed init init
  | step {s : SimState} {a : Act} :
      Reaches allowed init s → allowed a → Reaches allowed init (applyAct s a)

/-- A run of the simulation from `s` over a list of operations. -/
def runTrace (s : SimState) (acts : List Act) : SimState :=
  acts.foldl applyAct s

/-- The normalization invariant of a belief pair. -/
def GoodPair (b : ℝ × ℝ) : Prop :=
  0 ≤ b.1 ∧ 0 ≤ b.2 ∧ b.1 + b.2 = 1

/-- The normalization invariant of the belief vector. -/
def GoodBelief (s : SimState) : Prop := GoodPair s.belief

/-! ### Characterizations of `tick` -/

theorem tick_not_runs {s : SimState} {inp : TickIn} (h : ¬ tickRuns s inp) :
    tick s inp = s := by
  rw [tickRuns] at h
  push_neg at h
  rw [tick]
  by_cases hr : s.running = false
  · rw [if_pos hr]
  · rw [if_neg hr]
    have hr' : s.running = true := by
      revert hr
      cases s.running <;> simp
    rw [if_pos (h hr')]

theorem tick_eq_sense {s : SimState} {inp : TickIn} (hr : tickRuns s inp)
    (hds : tickDoSense s inp) (h28 : s.elapsed + tickDt inp ≤ 28) :
    tick s inp =
      { s with
        robot := tickRobot s inp
        belief := beliefUpdate s.belief (tickMeas s inp)
        action := (tickChoose s inp).2.1
        measInfo := some (tickMeas s inp)
        senseTimer := 0
        stubTimer := (tickChoose s inp).2.2.1
        stubSide := (tickChoose s inp).2.2.2
        elapsed := s.elapsed + tickDt inp } := by
  obtain ⟨hrun, hdt⟩ := hr
  have h1 : (s.running = false) = False := by simp [hrun]
  simp only [tick, h1, if_false, if_neg hdt, if_pos hds]
  rw [if_neg (by simpa using not_lt.mpr h28)]

theorem tick_eq_nosense {s : SimState} {inp : TickIn} (hr : tickRuns s inp)
    (hds : ¬ tickDoSense s inp) (h28 : s.elapsed + tickDt inp ≤ 28) :
    tick s inp =
      { s with
        robot := tickRobot s inp
        action := (tickChoose s inp).2.1
        measInfo := if s.simMode = SimMode.STUBBORN then none else s.measInfo
        senseTimer := s.senseTimer + tickDt inp
        stubTimer := (tickChoose s inp).2.2.1
        stubSide := (tickChoose s inp).2.2.2
        elapsed := s.elapsed + tickDt inp } := by
  obtain ⟨hrun, hdt⟩ := hr
  have h1 : (s.running = false) = False := by simp [hrun]
  simp only [tick, h1, if_false, if_neg hdt, if_neg hds]
  rw [if_neg (by simpa using not_lt.mpr h28)]

/-- Both branches accumulate `elapsed`, so the auto-loop reset at 28 s
fires independently of the sensing branch taken. -/
theorem tick_eq_reset {s : SimState} {inp : TickIn} (hr : tickRuns s inp)
    (h28 : 28 < s.elapsed + tickDt inp) :
    tick s inp = resetState s.priorMode s.simMode inp.coin := by
  obtain ⟨hrun, hdt⟩ := hr
  have h1 : (s.running = false) = False := by simp [hrun]
  by_cases hds : tickDoSense s inp
  · simp only [tick, h1, if_false, if_neg hdt, if_pos hds]
    rw [if_pos (by simpa using h28)]
  · simp only [tick, h1, if_false, if_neg hdt, if_neg hds]
    rw [if_pos (by simpa using h28)]

theorem tick_modes (s : SimState) (inp : TickIn) :
    (tick s inp).priorMode = s.priorMode ∧ (tick s inp).simMode = s.simMode := by
  by_cases hr : tickRuns s inp
  · by_cases h28 : 28 < s.elapsed + tickDt inp
    · rw [tick_eq_reset hr h28]
      exact ⟨rfl, rfl⟩
    · push_neg at h28
      by_cases hds : tickDoSense s inp
      · rw [tick_eq_sense hr hds h28]
        exact ⟨rfl, rfl⟩
      · rw [tick_eq_nosense hr hds h28]
        exact ⟨rfl, rfl⟩
  · rw [tick_not_runs hr]
    exact ⟨rfl, rfl⟩

theorem tick_belief_cases (s : SimState) (inp : TickIn) :
    (tick s inp).belief = s.belief ∨
      (tick s inp).belief = beliefUpdate s.belief (tickMeas s inp) ∨
      (tick s inp).belief = computeInitialBelief s.priorMode := by
  by_cases hr : tickRuns s inp
  · by_cases h28 : 28 < s.elapsed + tickDt inp
    · rw [tick_eq_reset hr h28]
      exact Or.inr (Or.inr rfl)
    · push_neg at h28
      by_cases hds : tickDoSense s inp
      · rw [tick_eq_sense hr hds h28]
        exact Or.inr (Or.inl rfl)
      · rw [tick_eq_nosense hr hds h28]
        exact Or.inl rfl
  · rw [tick_not_runs hr]
    exact Or.inl rfl

/-! ### The normalization invariant (C2) -/

theorem goodPair_computeInitialBelief (p : PriorMode) :
    GoodPair (computeInitialBelief p) := by
  cases p <;> norm_num [computeInitialBelief, GoodPair]

theorem goodPair_beliefUpdate {b : ℝ × ℝ} (hb : GoodPair b) (m : Meas) :
    GoodPair (beliefUpdate b m) := by
  obtain ⟨h1, h2, h12⟩ := hb
  rw [beliefUpdate]
  split
  · rename_i hs
    have hnw1 : 0 ≤ (temperedWeights b m).1 :=
      mul_nonneg h1 (Real.rpow_nonneg (Real.exp_nonneg _) _)
    have hnw2 : 0 ≤ (temperedWeights b m).2 :=
      mul_nonneg h2 (Real.rpow_nonneg (Real.exp_nonneg _) _)
    have hspos : 0 < (temperedWeights b m).1 + (temperedWeights b m).2 := by
      calc (0:ℝ) < 1e-9 := by norm_num
      _ < _ := hs
    exact ⟨div_nonneg hnw1 (le_of_lt hspos), div_nonneg hnw2 (le_of_lt hspos),
      by field_simp⟩
  · exact ⟨h1, h2, h12⟩

theorem tick_goodBelief {s : SimState} (inp : TickIn) (h : GoodBelief s) :
    GoodBelief (tick s inp) := by
  rcases tick_belief_cases s inp with hc | hc | hc <;> rw [GoodBelief, hc]
  · exact h
  · exact goodPair_beliefUpdate h _
  · exact goodPair_computeInitialBelief _

theorem applyAct_goodBelief {s : SimState} (a : Act) (h : GoodBelief s) :
    GoodBelief (applyAct s a) := by
  cases a with
  | tick inp => exact tick_goodBelief inp h
  | start => exact h
  | pause => exact h
  | reset p m coin => exact goodPair_computeInitialBelief p

theorem reaches_goodBelief {allowed : Act → Prop} {p : PriorMode} {m : SimMode}
    {coin : Bool} {s : SimState}
    (h : Reaches allowed (resetState p m coin) s) : GoodBelief s := by
  induction h with
  | refl => exact goodPair_computeInitialBelief p
  | step hr _ ih => exact applyAct_goodBelief _ ih

/-- C2: on every tick of any run started from a configured prior, if a
sense event performs a belief update (pre-normalization sum above
`1e-9`), the post-tick belief vector sums to `1` within `1e-6` and
both components remain nonnegative. -/
theorem C2_belief_normalized (p : PriorMode) (m : SimMode) (coin : Bool)
    (s : SimState) (inp : TickIn)
    (hreach : Reaches (fun _ => True) (resetState p m coin) s)
    (hsense : tickSenses s inp) (hupd : 1e-9 < tickSum s inp) :
    |((tick s inp).belief.1 + (tick s inp).belief.2) - 1| ≤ 1e-6 ∧
      0 ≤ (tick s inp).belief.1 ∧ 0 ≤ (tick s inp).belief.2 := by
  have hg : GoodBelief (tick s inp) :=
    tick_goodBelief inp (reaches_goodBelief hreach)
  obtain ⟨h1, h2, h12⟩ := hg
  refine ⟨?_, h1, h2⟩
  rw [h12]
  norm_num

/-! ### STUBBORN mode facts (C6) -/

/-- STUBBORN mode never passes the bottom-up gate
(`allowBottomUp === false`). -/
theorem not_tickDoSense_stubborn {s : SimState} {inp : TickIn}
    (h : s.simMode = SimMode.STUBBORN) : ¬ tickDoSense s inp := by
  intro ⟨h1, _⟩
  exact h1 h

theorem tick_belief_stubborn {s : SimState} (inp : TickIn)
    (h : s.simMode = SimMode.STUBBORN) :
    (tick s inp).belief = s.belief ∨
      (tick s inp).belief = computeInitialBelief s.priorMode := by
  by_cases hr : tickRuns s inp
  · by_cases h28 : 28 < s.elapsed + tickDt inp
    · rw [tick_eq_reset hr h28]
      exact Or.inr rfl
    · push_neg at h28
      rw [tick_eq_nosense hr (not_tickDoSense_stubborn h) h28]
      exact Or.inl rfl
  · rw [tick_not_runs hr]
    exact Or.inl rfl

/-- In the stubborn STRONG_WRONG configuration the policy always
selects landmark 2, with no change to the dither bookkeeping. -/
theorem chooseTarget_strong_wrong {s : SimState}
    (hm : s.simMode = SimMode.STUBBORN)
    (hp : s.priorMode = PriorMode.STRONG_WRONG) (dt : ℝ) :
    chooseTarget s dt = (L2, "GO_TO_L2 (stubborn prior)", s.stubTimer, s.stubSide) := by
  rw [chooseTarget, hm, hp]

/-- The operations available inside the stubborn strong-wrong scenario
(any number of ticks, start/pause, and scenario-preserving resets). -/
def allowedStubborn (a : Act) : Prop :=
  ∀ p m c, a = Act.reset p m c →
    p = PriorMode.STRONG_WRONG ∧ m = SimMode.STUBBORN

/-- C6: in STUBBORN mode with the STRONG_WRONG prior, every reachable
state of the run still has the initial belief `[0.1, 0.9]`, and the
policy's chosen motion target is always landmark L2. -/
theorem C6_stubborn_strong_wrong (coin : Bool) (s : SimState)
    (h : Reaches allowedStubborn
      (resetState PriorMode.STRONG_WRONG SimMode.STUBBORN coin) s) :
    s.belief = computeInitialBelief PriorMode.STRONG_WRONG ∧
      s.belief = (0.1, 0.9) ∧
      ∀ dt : ℝ, (chooseTarget s dt).1 = L2 ∧
        (chooseTarget s dt).2.1 = "GO_TO_L2 (stubborn prior)" := by
  have key : s.priorMode = PriorMode.STRONG_WRONG ∧
      s.simMode = SimMode.STUBBORN ∧ s.belief = (0.1, 0.9) := by
    induction h with
    | refl => exact ⟨rfl, rfl, rfl⟩
    | step hr ha ih =>
      obtain ⟨ihp, ihm, ihb⟩ := ih
      rename_i s' a
      cases a with
      | tick inp =>
        obtain ⟨hp', hm'⟩ := tick_modes s' inp
        refine ⟨hp'.trans ihp, hm'.trans ihm, ?_⟩
        rcases tick_belief_stubborn inp ihm with hc | hc
        · rw [applyAct, hc, ihb]
        · rw [applyAct, hc, ihp]
          rfl
      | start => exact ⟨ihp, ihm, ihb⟩
      | pause => exact ⟨ihp, ihm, ihb⟩
      | reset p m c =>
        obtain ⟨hp, hm⟩ := ha p m c rfl
        rw [hp, hm]
        exact ⟨rfl, rfl, rfl⟩
  obtain ⟨hp, hm, hb⟩ := key
  refine ⟨hb, hb, fun dt => ?_⟩
  rw [chooseTarget_strong_wrong hm hp]
  exact ⟨rfl, rfl⟩

/-- C6, instantiated on the concrete two-step run
`reset; start; tick(250ms)`. -/
theorem C6_stubborn_strong_wrong_witness :
    (Reaches allowedStubborn
      (resetState PriorMode.STRONG_WRONG SimMode.STUBBORN true)
      (applyAct
        (applyAct (resetState PriorMode.STRONG_WRONG SimMode.STUBBORN true)
          Act.start)
        (Act.tick ⟨250, 0, true⟩))) ∧
    (applyAct
        (applyAct (resetState PriorMode.STRONG_WRONG SimMode.STUBBORN true)
          Act.start)
        (Act.tick ⟨250, 0, true⟩)).belief = (0.1, 0.9) := by
  have hr : Reaches allowedStubborn
      (resetState PriorMode.STRONG_WRONG SimMode.STUBBORN true)
      (applyAct
        (applyAct (resetState PriorMode.STRONG_WRONG SimMode.STUBBORN true)
          Act.start)
        (Act.tick ⟨250, 0, true⟩)) :=
    Reaches.step
      (Reaches.step Reaches.refl (fun p m c hc => Act.noConfusion hc))
      (fun p m c hc => Act.noConfusion hc)
  exact ⟨hr, (C6_stubborn_strong_wrong true _ hr).2.1⟩

/-! ### Concrete-evaluation toolkit -/

theorem hypot_nonneg (a b : ℝ) : 0 ≤ hypot a b := Real.sqrt_nonneg _

theorem hypot_of_nonneg {a : ℝ} (h : 0 ≤ a) (b : ℝ) (hb : b = 0) :
    hypot a b = a := by
  rw [hypot, hb]
  simp [Real.sqrt_sq h]

theorem hypot_zero : hypot 0 0 = 0 := hypot_of_nonneg le_rfl 0 rfl

theorem atan2_pos_x {y x : ℝ} (hx : 0 < x) : atan2 y x = arctan (y / x) := by
  rw [atan2, if_pos hx]

theorem atan2_zero_pos_x {x : ℝ} (hx : 0 < x) : atan2 0 x = 0 := by
  rw [atan2_pos_x hx, zero_div, Real.arctan_zero]

theorem wrapPi_wrapPi (a : ℝ) : wrapPi (wrapPi a) = wrapPi a :=
  wrapPi_of_mem (wrapPi_mem_Icc a).1 (wrapPi_mem_Icc a).2

/-- `wrapPi` on `(π, 3π]` subtracts one full turn. -/
theorem wrapPi_of_shift {a : ℝ} (h1 : π < a) (h2 : a ≤ 3 * π) :
    wrapPi a = a - 2 * π := by
  have hd : wrapDown a = a - 2 * π := by
    rw [wrapDown, dif_pos h1, wrapDown_of_le (by linarith)]
  rw [wrapPi, hd, wrapUp_of_ge (by linarith)]

theorem clamp_self_left {v hi : ℝ} (h : v ≤ hi) : clamp v v hi = v := by
  rw [clamp, min_eq_right h, max_self]

/-- The policy in BIDIR mode with an unconfident belief: head for the
vantage point. -/
theorem chooseTarget_unconfident {s : SimState} (hm : s.simMode = SimMode.BIDIR)
    (hb : |s.belief.1 - s.belief.2| < CONF_THRESH) (dt : ℝ) :
    chooseTarget s dt =
      (VANTAGE, "GO_TO_V (active localization)", s.stubTimer, s.stubSide) := by
  rw [chooseTarget, hm]
  exact if_neg (not_le.mpr hb)

/-- Eastbound straight-line motion: heading already points at a target
due east, so the pose stays on the horizontal line. -/
theorem moveStep_east {x y tx dt : ℝ} (h : 2.5 < tx - x) (hdt : 0 ≤ dt) :
    moveStep ⟨x, y, 0⟩ ⟨tx, y⟩ dt =
      ⟨clamp (x + SPEED * dt) 10 (WORLD_W - 10), clamp y 10 (WORLD_H - 10), 0⟩ := by
  have hx : (0:ℝ) ≤ tx - x := by linarith
  simp only [moveStep]
  rw [show y - y = (0:ℝ) by ring, hypot_of_nonneg hx 0 rfl, if_pos h]
  rw [atan2_zero_pos_x (by linarith), angleDiff, show (0:ℝ) - 0 = 0 by ring,
    wrapPi_zero]
  have htr : (0:ℝ) ≤ TURN_RATE * dt := mul_nonneg (by norm_num [TURN_RATE]) hdt
  rw [show clamp 0 (-(TURN_RATE * dt)) (TURN_RATE * dt) = 0 from
    clamp_of_mem (neg_nonpos.mpr htr) htr]
  rw [show (0:ℝ) + 0 = 0 by ring, wrapPi_zero, Real.cos_zero, Real.sin_zero]
  rw [one_mul, zero_mul, add_zero]

/-- No motion within `2.5` units of the target. -/
theorem moveStep_still {r : Robot} {t : Pt} {dt : ℝ}
    (h : hypot (t.x - r.x) (t.y - r.y) ≤ 2.5) : moveStep r t dt = r := by
  simp only [moveStep]
  rw [if_neg (not_lt.mpr h)]

/-- With a zero noise draw the measured bearing coincides with the
hypothesis-1 prediction, so `err1 = 0`. -/
theorem senseMeas_err1_zero (r : Robot) : (senseMeas r 0).err1 = 0 := by
  simp only [senseMeas]
  rw [zero_mul, add_zero, wrapPi_wrapPi, angleDiff, sub_self, wrapPi_zero,
    abs_zero]

theorem senseMeas_meas_eq_pred1 (r : Robot) :
    (senseMeas r 0).meas = (senseMeas r 0).pred1 := by
  simp only [senseMeas]
  rw [zero_mul, add_zero, wrapPi_wrapPi]

/-! ### A concrete BIDIR run marching from START to the vantage point -/

/-- The concrete tick input used in the runs below: a 250 ms frame
with a zero noise draw. -/
def inTick : TickIn := ⟨250, 0, true⟩

/-- A family of BIDIR states on the horizontal line through the start
pose and the vantage point. -/
def marchSt (x : ℝ) (act : String) (mi : Option Meas) (el st : ℝ)
    (b : ℝ × ℝ) : SimState :=
  { priorMode := PriorMode.WEAK, simMode := SimMode.BIDIR, running := true,
    robot := ⟨x, 150, 0⟩, belief := b, action := act, measInfo := mi,
    elapsed := el, senseTimer := st, stubTimer := 0, stubSide := 0 }

theorem tickDt_inTick : tickDt inTick = 0.25 := by
  norm_num [tickDt, inTick]

theorem tickRuns_marchSt (x : ℝ) (act : String) (mi : Option Meas)
    (el st : ℝ) (b : ℝ × ℝ) : tickRuns (marchSt x act mi el st b) inTick := by
  refine ⟨rfl, ?_⟩
  rw [tickDt_inTick]
  norm_num

theorem tickChoose_march {b : ℝ × ℝ} (hb : |b.1 - b.2| < CONF_THRESH)
    (x : ℝ) (act : String) (mi : Option Meas) (el st : ℝ) :
    tickChoose (marchSt x act mi el st b) inTick =
      (VANTAGE, "GO_TO_V (active localization)", 0, 0) :=
  chooseTarget_unconfident rfl hb _

theorem tickRobot_march {b : ℝ × ℝ} (hb : |b.1 - b.2| < CONF_THRESH)
    {x : ℝ} (hx : 2.5 < 200 - x) (hlo : 10 ≤ x + 22.5)
    (hhi : x + 22.5 ≤ 390) (act : String) (mi : Option Meas) (el st : ℝ) :
    tickRobot (marchSt x act mi el st b) inTick = ⟨x + 22.5, 150, 0⟩ := by
  rw [tickRobot, tickChoose_march hb]
  show moveStep ⟨x, 150, 0⟩ VANTAGE (tickDt inTick) = _
  rw [tickDt_inTick]
  rw [show VANTAGE = (⟨200, 150⟩ : Pt) from rfl]
  rw [moveStep_east hx (by norm_num)]
  rw [show SPEED * 0.25 = (22.5:ℝ) by norm_num [SPEED]]
  rw [show WORLD_W - 10 = (390:ℝ) by norm_num [WORLD_W]]
  rw [show WORLD_H - 10 = (290:ℝ) by norm_num [WORLD_H]]
  rw [clamp_of_mem hlo hhi, clamp_of_mem (by norm_num) (by norm_num)]

/-- The vantage-distance gate after an eastbound move, in closed
form. -/
theorem tickDoSense_march_iff {b : ℝ × ℝ} (hb : |b.1 - b.2| < CONF_THRESH)
    {x : ℝ} (hx : 2.5 < 200 - x) (hlo : 10 ≤ x + 22.5)
    (hhi : x + 22.5 ≤ 390) (hx200 : x + 22.5 ≤ 200)
    (act : String) (mi : Option Meas) (el st : ℝ) :
    (tickDoSense (marchSt x act mi el st b) inTick ↔
      (0.35 ≤ st + 0.25 ∧ 200 - (x + 22.5) ≤ 55)) := by
  rw [tickDoSense, tickRobot_march hb hx hlo hhi, tickDt_inTick]
  show (SimMode.BIDIR ≠ SimMode.STUBBORN ∧ SENSE_PERIOD ≤ st + 0.25 ∧
      (SimMode.BIDIR = SimMode.BIDIR ∧
        hypot (VANTAGE.x - (x + 22.5)) (VANTAGE.y - 150) ≤ V_SENSE_RADIUS)) ↔ _
  rw [show VANTAGE.x - (x + 22.5) = 200 - (x + 22.5) from by
    norm_num [VANTAGE]]
  rw [show VANTAGE.y - 150 = (0:ℝ) from by norm_num [VANTAGE]]
  rw [hypot_of_nonneg (by linarith) 0 rfl]
  rw [show SENSE_PERIOD = (0.35:ℝ) from rfl,
    show V_SENSE_RADIUS = (55:ℝ) from rfl]
  constructor
  · rintro ⟨_, h2, _, h4⟩
    exact ⟨h2, h4⟩
  · rintro ⟨h2, h4⟩
    exact ⟨by simp, h2, rfl, h4⟩

/-- One no-sense marching tick in closed form. -/
theorem tick_march_nosense {b : ℝ × ℝ} (hb : |b.1 - b.2| < CONF_THRESH)
    {x : ℝ} (hx : 2.5 < 200 - x) (hlo : 10 ≤ x + 22.5)
    (hhi : x + 22.5 ≤ 390) (hx200 : x + 22.5 ≤ 200)
    (act : String) (mi : Option Meas) {el st : ℝ}
    (hgate : ¬ (0.35 ≤ st + 0.25 ∧ 200 - (x + 22.5) ≤ 55))
    (h28 : el + 0.25 ≤ 28) :
    tick (marchSt x act mi el st b) inTick =
      marchSt (x + 22.5) "GO_TO_V (active localization)" mi (el + 0.25)
        (st + 0.25) b := by
  have hds : ¬ tickDoSense (marchSt x act mi el st b) inTick := by
    rw [tickDoSense_march_iff hb hx hlo hhi hx200]
    exact hgate
  rw [tick_eq_nosense (tickRuns_marchSt x act mi el st b) hds
    (by rw [tickDt_inTick]; exact h28)]
  rw [tickRobot_march hb hx hlo hhi, tickChoose_march hb, tickDt_inTick]
  simp [marchSt]

/-! ### C4: behaviour outside the sensing gate -/

/-- C4 as the spec states it: outside the gate the belief is unchanged
and the stored measurement record is cleared, in any mode. -/
def C4_claim : Prop :=
  ∀ (s : SimState) (inp : TickIn), tickRuns s inp → ¬ tickDoSense s inp →
    (tick s inp).belief = s.belief ∧ (tick s inp).measInfo = none

/-- A stale measurement record (contents irrelevant). -/
def mStale : Meas := ⟨1, 1, 1, 1, 1, 1, "H1 (Near L1)", true⟩

/-- A no-gate BIDIR tick that retains the stale record. -/
def sC4 : SimState := marchSt 60 "IDLE" (some mStale) 0 0 (0.5, 0.5)

/-- A no-gate BIDIR tick that crosses the 28 s auto-loop boundary and
therefore resets the belief to the prior. -/
def sC4b : SimState := marchSt 60 "IDLE" none 27.9 0 (0.45, 0.55)

theorem sC4_nosense : ¬ tickDoSense sC4 inTick := by
  rw [sC4, tickDoSense_march_iff (by norm_num [CONF_THRESH]) (by norm_num)
    (by norm_num) (by norm_num) (by norm_num)]
  norm_num

theorem sC4b_nosense : ¬ tickDoSense sC4b inTick := by
  rw [sC4b, tickDoSense_march_iff (by norm_num [CONF_THRESH, abs_lt]) (by norm_num)
    (by norm_num) (by norm_num) (by norm_num)]
  norm_num

/-- C4 (counterexample): in BIDIR mode outside the gate, the previous
measurement record is NOT cleared (first conjunct), and on the tick
crossing the 28 s auto-loop boundary the belief does change even
though the gate does not hold (second conjunct, which forces the
auto-reset proviso in the amended statement). -/
theorem C4_stale_meas_claim_false :
    ¬ C4_claim ∧
      (tickRuns sC4b inTick ∧ ¬ tickDoSense sC4b inTick ∧
        (tick sC4b inTick).belief ≠ sC4b.belief) := by
  have hb : (tick sC4b inTick).belief ≠ sC4b.belief := by
    rw [show tick sC4b inTick = resetState PriorMode.WEAK SimMode.BIDIR true from
      tick_eq_reset (tickRuns_marchSt _ _ _ _ _ _)
        (by rw [tickDt_inTick]; norm_num [sC4b, marchSt])]
    rw [resetState, computeInitialBelief]
    intro hcontra
    have h1 : (0.5:ℝ) = 0.45 := congrArg Prod.fst hcontra
    norm_num at h1
  refine ⟨fun hcl => ?_, tickRuns_marchSt _ _ _ _ _ _, sC4b_nosense, hb⟩
  have h := (hcl sC4 inTick (tickRuns_marchSt _ _ _ _ _ _) sC4_nosense).2
  rw [show tick sC4 inTick =
      marchSt 82.5 "GO_TO_V (active localization)" (some mStale) 0.25 0.25
        (0.5, 0.5) from by
    rw [sC4, tick_march_nosense (by norm_num [CONF_THRESH]) (by norm_num)
      (by norm_num) (by norm_num) (by norm_num) _ _ (by norm_num)
      (by norm_num)]
    norm_num] at h
  exact Option.noConfusion h

/-- C4 (amended): outside the sensing gate, provided the tick does not
cross the 28 s auto-loop boundary, the belief vector is unchanged and
the stored measurement record is cleared to null in STUBBORN mode but
retained unchanged in BIDIR mode. -/
theorem C4_gate_amended (s : SimState) (inp : TickIn) (hr : tickRuns s inp)
    (hds : ¬ tickDoSense s inp) (h28 : s.elapsed + tickDt inp ≤ 28) :
    (tick s inp).belief = s.belief ∧
      (tick s inp).measInfo =
        (if s.simMode = SimMode.STUBBORN then none else s.measInfo) := by
  rw [tick_eq_nosense hr hds h28]
  exact ⟨rfl, rfl⟩

/-- C4 amended, instantiated at the concrete no-gate BIDIR tick. -/
theorem C4_gate_amended_witness :
    tickRuns sC4 inTick ∧ ¬ tickDoSense sC4 inTick ∧
      sC4.elapsed + tickDt inTick ≤ 28 ∧
      ((tick sC4 inTick).belief = sC4.belief ∧
        (tick sC4 inTick).measInfo =
          (if sC4.simMode = SimMode.STUBBORN then none else sC4.measInfo)) :=
  ⟨tickRuns_marchSt _ _ _ _ _ _, sC4_nosense,
    by rw [tickDt_inTick]; norm_num [sC4, marchSt],
    C4_gate_amended sC4 inTick (tickRuns_marchSt _ _ _ _ _ _) sC4_nosense
      (by rw [tickDt_inTick]; norm_num [sC4, marchSt])⟩

/-! ### C7: the degenerate-normalization branch -/

/-- Tick input whose noise draw pushes the measured bearing `π` away
from the hypothesis-1 prediction (`noise · σ = π` at `σ = 0.045`). -/
def inC7 : TickIn := ⟨250, 200 * π / 9, true⟩

/-- A state sitting exactly on the vantage point with an uncommitted
belief, about to sense. -/
def degSt (el : ℝ) : SimState :=
  { priorMode := PriorMode.WEAK, simMode := SimMode.BIDIR, running := true,
    robot := ⟨200, 150, 0⟩, belief := (0.4, 0.6), action := "IDLE",
    measInfo := none, elapsed := el, senseTimer := 1, stubTimer := 0,
    stubSide := 0 }

theorem tickDt_inC7 : tickDt inC7 = 0.25 := by
  norm_num [tickDt, inC7]

theorem tickRuns_degSt (el : ℝ) : tickRuns (degSt el) inC7 := by
  refine ⟨rfl, ?_⟩
  rw [tickDt_inC7]
  norm_num

theorem tickRobot_deg (el : ℝ) : tickRobot (degSt el) inC7 = ⟨200, 150, 0⟩ := by
  rw [tickRobot, tickChoose,
    chooseTarget_unconfident rfl (by norm_num [degSt, CONF_THRESH, abs_lt])]
  show moveStep ⟨200, 150, 0⟩ VANTAGE (tickDt inC7) = ⟨200, 150, 0⟩
  exact moveStep_still (by
    rw [show VANTAGE.x - (⟨200, 150, 0⟩ : Robot).x = 0 by norm_num [VANTAGE],
      show VANTAGE.y - (⟨200, 150, 0⟩ : Robot).y = 0 by norm_num [VANTAGE],
      hypot_zero]
    norm_num)

theorem tickDoSense_deg (el : ℝ) : tickDoSense (degSt el) inC7 := by
  refine ⟨fun h => SimMode.noConfusion h, ?_, rfl, ?_⟩
  · rw [tickDt_inC7]
    norm_num [degSt, SENSE_PERIOD]
  · rw [tickRobot_deg]
    rw [show VANTAGE.x - (⟨200, 150, 0⟩ : Robot).x = 0 by norm_num [VANTAGE],
      show VANTAGE.y - (⟨200, 150, 0⟩ : Robot).y = 0 by norm_num [VANTAGE],
      hypot_zero]
    norm_num [V_SENSE_RADIUS]

theorem tickMeas_deg (el : ℝ) :
    tickMeas (degSt el) inC7 = senseMeas ⟨200, 150, 0⟩ (200 * π / 9) := by
  rw [tickMeas, tickRobot_deg]
  rfl

/-- Evaluation of the degenerate measurement: the measured bearing is
`π` away from prediction 1 and `π - γ` away from prediction 2, where
`γ = arctan(23/12) - arctan(3/4)`, at the minimal noise level
`σ = 0.045`. -/
theorem senseMeas_deg_eval :
    (senseMeas ⟨200, 150, 0⟩ (200 * π / 9)).sigma = 0.045 ∧
      (senseMeas ⟨200, 150, 0⟩ (200 * π / 9)).err1 = π ∧
      (senseMeas ⟨200, 150, 0⟩ (200 * π / 9)).err2 =
        π - (arctan (23/12) - arctan (3/4)) := by
  have hπ := pi_pos
  have hA1 : (0:ℝ) < arctan (3/4) := by
    rw [← Real.arctan_zero]
    exact Real.arctan_strictMono (by norm_num)
  have hA2 : arctan (3/4) < π/2 := Real.arctan_lt_pi_div_two _
  have hB1 : (0:ℝ) < arctan (23/12) := by
    rw [← Real.arctan_zero]
    exact Real.arctan_strictMono (by norm_num)
  have hB2 : arctan (23/12) < π/2 := Real.arctan_lt_pi_div_two _
  have hAB : arctan (3/4) < arctan (23/12) :=
    Real.arctan_strictMono (by norm_num)
  have hdV : hypot (VANTAGE.x - (⟨200, 150, 0⟩ : Robot).x)
      (VANTAGE.y - (⟨200, 150, 0⟩ : Robot).y) = 0 := by
    rw [show VANTAGE.x - (⟨200, 150, 0⟩ : Robot).x = 0 by norm_num [VANTAGE],
      show VANTAGE.y - (⟨200, 150, 0⟩ : Robot).y = 0 by norm_num [VANTAGE],
      hypot_zero]
  have hsig : clamp (0.045 + 0.15 * ((0:ℝ) / V_SENSE_RADIUS)) 0.045 0.20 =
      0.045 := by
    rw [show (0.045:ℝ) + 0.15 * (0 / V_SENSE_RADIUS) = 0.045 by norm_num]
    exact clamp_of_mem le_rfl (by norm_num)
  have htb : wrapPi (atan2 (BEACON.y - (⟨200, 150, 0⟩ : Robot).y)
      (BEACON.x - (⟨200, 150, 0⟩ : Robot).x) - (⟨200, 150, 0⟩ : Robot).theta) =
      -arctan (3/4) := by
    rw [show BEACON.y - (⟨200, 150, 0⟩ : Robot).y = -90 by norm_num [BEACON],
      show BEACON.x - (⟨200, 150, 0⟩ : Robot).x = 120 by norm_num [BEACON],
      show (⟨200, 150, 0⟩ : Robot).theta = 0 from rfl, sub_zero,
      atan2_pos_x (by norm_num), show (-90:ℝ)/120 = -(3/4) by norm_num,
      Real.arctan_neg]
    exact wrapPi_of_mem (by linarith) (by linarith)
  have hgh : clamp ((⟨200, 150, 0⟩ : Robot).y + SHIFT_Y) 10 (WORLD_H - 10) =
      290 := by
    rw [show (⟨200, 150, 0⟩ : Robot).y + SHIFT_Y = 290 by norm_num [SHIFT_Y]]
    rw [show WORLD_H - 10 = (290:ℝ) by norm_num [WORLD_H]]
    exact clamp_of_mem (by norm_num) le_rfl
  have hp2 : wrapPi (atan2 (BEACON.y - 290) (BEACON.x - (⟨200, 150, 0⟩ : Robot).x) -
      (⟨200, 150, 0⟩ : Robot).theta) = -arctan (23/12) := by
    rw [show BEACON.y - (290:ℝ) = -230 by norm_num [BEACON],
      show BEACON.x - (⟨200, 150, 0⟩ : Robot).x = 120 by norm_num [BEACON],
      show (⟨200, 150, 0⟩ : Robot).theta = 0 from rfl, sub_zero,
      atan2_pos_x (by norm_num), show (-230:ℝ)/120 = -(23/12) by norm_num,
      Real.arctan_neg]
    exact wrapPi_of_mem (by linarith) (by linarith)
  have hnoise : 200 * π / 9 * (0.045:ℝ) = π := by
    field_simp
    ring
  have hmeas : wrapPi (-arctan (3/4) + π) = -arctan (3/4) + π :=
    wrapPi_of_mem (by linarith) (by linarith)
  simp only [senseMeas]
  rw [hdV, hsig, htb, hgh, hp2, hnoise, hmeas]
  refine ⟨rfl, ?_, ?_⟩
  · rw [angleDiff, show -arctan (3/4) + π - -arctan (3/4) = π by ring,
      wrapPi_pi]
    exact abs_of_pos hπ
  · rw [angleDiff, show -arctan (3/4) + π - -arctan (23/12) =
      π + (arctan (23/12) - arctan (3/4)) by ring]
    rw [wrapPi_of_shift (by linarith) (by linarith)]
    rw [show π + (arctan (23/12) - arctan (3/4)) - 2 * π =
      -(π - (arctan (23/12) - arctan (3/4))) by ring]
    rw [abs_neg]
    exact abs_of_pos (by linarith)

/-- Tempered likelihood of an angular error of at least `1.5` rad at
`σ = 0.045` is below `exp (-30)`. -/
theorem tempered_tail_le {e : ℝ} (he : 1.5 ≤ e) :
    Real.exp (-0.5 * (e / 0.045) * (e / 0.045)) ^ ALPHA ≤ Real.exp (-30) := by
  rw [Real.rpow_def_of_pos (Real.exp_pos _), Real.log_exp]
  apply Real.exp_le_exp.mpr
  have hu : (100/3:ℝ) ≤ e / 0.045 := by
    rw [le_div_iff (by norm_num : (0:ℝ) < 0.045)]
    linarith
  rw [ALPHA]
  nlinarith [hu, sq_nonneg (e / 0.045 - 100/3)]

theorem exp_neg_thirty_lt : Real.exp (-30) < 1e-9 := by
  have h2 : (2:ℝ)^(30:ℕ) < Real.exp 30 := by
    calc (2:ℝ)^(30:ℕ) < Real.exp 1 ^ (30:ℕ) := by
          apply pow_lt_pow_left _ (by norm_num) (by norm_num)
          linarith [Real.exp_one_gt_d9]
    _ = Real.exp 30 := by
          rw [← Real.exp_nat_mul]
          norm_num
  rw [Real.exp_neg]
  rw [inv_lt (Real.exp_pos _) (by norm_num : (0:ℝ) < 1e-9)]
  calc (1e-9:ℝ)⁻¹ = 1e9 := by norm_num
  _ < (2:ℝ)^(30:ℕ) := by norm_num
  _ < Real.exp 30 := h2

/-- The pre-normalization sum of the degenerate sense event is
numerically negligible. -/
theorem degSum_lt (el : ℝ) : tickSum (degSt el) inC7 < 1e-9 := by
  obtain ⟨hsig, he1, he2⟩ := senseMeas_deg_eval
  have hπ3 : (3:ℝ) < π := pi_gt_three
  have hA1 : (0:ℝ) < arctan (3/4) := by
    rw [← Real.arctan_zero]
    exact Real.arctan_strictMono (by norm_num)
  have hB2 : arctan (23/12) < π/2 := Real.arctan_lt_pi_div_two _
  have hge1 : (1.5:ℝ) ≤ (tickMeas (degSt el) inC7).err1 := by
    rw [tickMeas_deg, he1]
    linarith
  have hge2 : (1.5:ℝ) ≤ (tickMeas (degSt el) inC7).err2 := by
    rw [tickMeas_deg, he2]
    linarith
  have hs : (tickMeas (degSt el) inC7).sigma = 0.045 := by
    rw [tickMeas_deg, hsig]
  have hb1 : (degSt el).belief.1 = 0.4 := rfl
  have hb2 : (degSt el).belief.2 = 0.6 := rfl
  rw [tickSum, temperedWeights, hs, hb1, hb2]
  have k1 := tempered_tail_le hge1
  have k2 := tempered_tail_le hge2
  have hpos1 : (0:ℝ) ≤ Real.exp (-0.5 * ((tickMeas (degSt el) inC7).err1 / 0.045) *
      ((tickMeas (degSt el) inC7).err1 / 0.045)) ^ ALPHA :=
    le_of_lt (Real.rpow_pos_of_pos (Real.exp_pos _) _)
  have hpos2 : (0:ℝ) ≤ Real.exp (-0.5 * ((tickMeas (degSt el) inC7).err2 / 0.045) *
      ((tickMeas (degSt el) inC7).err2 / 0.045)) ^ ALPHA :=
    le_of_lt (Real.rpow_pos_of_pos (Real.exp_pos _) _)
  have := exp_neg_thirty_lt
  nlinarith [k1, k2]

/-- C7 as the spec states it: a degenerate sense event leaves the
belief vector exactly unchanged across the tick. -/
def C7_claim : Prop :=
  ∀ (s : SimState) (inp : TickIn), tickSenses s inp →
    tickSum s inp < 1e-9 → (tick s inp).belief = s.belief

/-- C7 (counterexample): a degenerate sense event on the tick that
crosses the 28 s auto-loop boundary still resets the belief vector to
the prior, so the belief after the tick differs from the belief before
it even though the update itself was skipped. -/
theorem C7_degenerate_claim_false : ¬ C7_claim := by
  intro hcl
  have h := hcl (degSt 27.9) inC7 ⟨tickRuns_degSt 27.9, tickDoSense_deg 27.9⟩
    (degSum_lt 27.9)
  rw [tick_eq_reset (tickRuns_degSt 27.9)
    (by rw [tickDt_inC7]; norm_num [degSt])] at h
  have h1 : (0.5:ℝ) = 0.4 := congrArg Prod.fst h
  norm_num at h1

/-- C7 (amended): on a sense event whose pre-normalization sum is
below `1e-9`, the update is skipped and the belief vector is unchanged
by the tick, provided the tick does not cross the 28 s auto-loop
boundary; the simulation continues (the tick is total and merely
stores the measurement record). -/
theorem C7_degenerate_amended (s : SimState) (inp : TickIn)
    (hs : tickSenses s inp) (hdeg : tickSum s inp < 1e-9)
    (h28 : s.elapsed + tickDt inp ≤ 28) :
    (tick s inp).belief = s.belief := by
  rw [tick_eq_sense hs.1 hs.2 h28]
  show beliefUpdate s.belief (tickMeas s inp) = s.belief
  rw [beliefUpdate]
  exact if_neg (not_lt.mpr (le_of_lt hdeg))

/-- C7 amended, instantiated at the concrete degenerate sense event
(away from the auto-loop boundary). -/
theorem C7_degenerate_amended_witness :
    tickSenses (degSt 0) inC7 ∧ tickSum (degSt 0) inC7 < 1e-9 ∧
      (degSt 0).elapsed + tickDt inC7 ≤ 28 ∧
      (tick (degSt 0) inC7).belief = (degSt 0).belief :=
  ⟨⟨tickRuns_degSt 0, tickDoSense_deg 0⟩, degSum_lt 0,
    by rw [tickDt_inC7]; norm_num [degSt],
    C7_degenerate_amended _ _ ⟨tickRuns_degSt 0, tickDoSense_deg 0⟩
      (degSum_lt 0) (by rw [tickDt_inC7]; norm_num [degSt])⟩

/-! ### C5: belief monotonicity under confirming evidence -/

theorem senseMeas_err1_nonneg (r : Robot) (n : ℝ) :
    0 ≤ (senseMeas r n).err1 := by
  simp only [senseMeas]
  exact abs_nonneg _

theorem tickMeas_err1_nonneg (s : SimState) (inp : TickIn) :
    0 ≤ (tickMeas s inp).err1 := by
  rw [tickMeas]
  exact senseMeas_err1_nonneg _ _

/-- A single update whose measurement favors hypothesis 1 cannot
decrease `w1`. -/
theorem beliefUpdate_w1_mono {b : ℝ × ℝ} {m : Meas} (hg : GoodPair b)
    (he0 : 0 ≤ m.err1) (he : m.err1 < m.err2) :
    b.1 ≤ (beliefUpdate b m).1 := by
  obtain ⟨h1, h2, h12⟩ := hg
  rw [beliefUpdate]
  split
  next hs =>
    have hsq : (m.err1 / m.sigma) * (m.err1 / m.sigma) ≤
        (m.err2 / m.sigma) * (m.err2 / m.sigma) := by
      rcases eq_or_ne m.sigma 0 with h0 | h0
      · rw [h0, div_zero]
        norm_num
      · rw [div_mul_div_comm, div_mul_div_comm]
        have hσ : 0 < m.sigma * m.sigma := mul_self_pos.mpr h0
        exact (div_le_div_right hσ).mpr
          (mul_self_le_mul_self he0 (le_of_lt he))
    have hLle : Real.exp (-0.5 * (m.err2 / m.sigma) * (m.err2 / m.sigma)) ≤
        Real.exp (-0.5 * (m.err1 / m.sigma) * (m.err1 / m.sigma)) := by
      apply Real.exp_le_exp.mpr
      nlinarith [hsq]
    have hBA : Real.exp (-0.5 * (m.err2 / m.sigma) * (m.err2 / m.sigma)) ^ ALPHA ≤
        Real.exp (-0.5 * (m.err1 / m.sigma) * (m.err1 / m.sigma)) ^ ALPHA :=
      Real.rpow_le_rpow (Real.exp_nonneg _) hLle (by norm_num [ALPHA])
    have hA0 : (0:ℝ) ≤
        Real.exp (-0.5 * (m.err1 / m.sigma) * (m.err1 / m.sigma)) ^ ALPHA :=
      Real.rpow_nonneg (Real.exp_nonneg _) _
    have hB0 : (0:ℝ) ≤
        Real.exp (-0.5 * (m.err2 / m.sigma) * (m.err2 / m.sigma)) ^ ALPHA :=
      Real.rpow_nonneg (Real.exp_nonneg _) _
    have hS : (0:ℝ) < (temperedWeights b m).1 + (temperedWeights b m).2 :=
      lt_trans (by norm_num) hs
    have hw1 : (temperedWeights b m).1 =
        b.1 * Real.exp (-0.5 * (m.err1 / m.sigma) * (m.err1 / m.sigma)) ^ ALPHA :=
      rfl
    have hw2 : (temperedWeights b m).2 =
        b.2 * Real.exp (-0.5 * (m.err2 / m.sigma) * (m.err2 / m.sigma)) ^ ALPHA :=
      rfl
    show b.1 ≤ (temperedWeights b m).1 /
      ((temperedWeights b m).1 + (temperedWeights b m).2)
    rw [le_div_iff hS, hw1, hw2]
    have hprod : b.1 * b.2 *
          Real.exp (-0.5 * (m.err2 / m.sigma) * (m.err2 / m.sigma)) ^ ALPHA ≤
        b.1 * b.2 *
          Real.exp (-0.5 * (m.err1 / m.sigma) * (m.err1 / m.sigma)) ^ ALPHA :=
      mul_le_mul_of_nonneg_left hBA (mul_nonneg h1 h2)
    have hx : b.1 *
          Real.exp (-0.5 * (m.err1 / m.sigma) * (m.err1 / m.sigma)) ^ ALPHA *
          (b.1 + b.2) =
        b.1 *
          Real.exp (-0.5 * (m.err1 / m.sigma) * (m.err1 / m.sigma)) ^ ALPHA := by
      rw [h12, mul_one]
    nlinarith [hprod, hx]
  next hs => exact le_rfl

/-- One tick never decreases `w1`, provided the belief is normalized,
the tick does not cross the auto-reset boundary, and any update it
performs favors hypothesis 1. -/
theorem tick_w1_mono {s : SimState} {inp : TickIn} (hg : GoodBelief s)
    (h28 : s.elapsed + tickDt inp ≤ 28)
    (hfav : tickSenses s inp → 1e-9 < tickSum s inp →
      (tickMeas s inp).err1 < (tickMeas s inp).err2) :
    s.belief.1 ≤ (tick s inp).belief.1 := by
  by_cases hr : tickRuns s inp
  · by_cases hds : tickDoSense s inp
    · rw [tick_eq_sense hr hds h28]
      show s.belief.1 ≤ (beliefUpdate s.belief (tickMeas s inp)).1
      by_cases hsum : 1e-9 < tickSum s inp
      · exact beliefUpdate_w1_mono hg (tickMeas_err1_nonneg s inp)
          (hfav ⟨hr, hds⟩ hsum)
      · rw [tickSum] at hsum
        rw [beliefUpdate, if_neg hsum]
    · rw [tick_eq_nosense hr hds h28]
  · rw [tick_not_runs hr]

theorem runTrace_nil (s : SimState) : runTrace s [] = s := rfl

theorem runTrace_append (s : SimState) (l1 l2 : List Act) :
    runTrace s (l1 ++ l2) = runTrace (runTrace s l1) l2 :=
  List.foldl_append _ _ _ _

theorem runTrace_goodBelief (s : SimState) (acts : List Act)
    (hg : GoodBelief s) : GoodBelief (runTrace s acts) := by
  induction acts generalizing s with
  | nil => exact hg
  | cons a l ih => exact ih (applyAct s a) (applyAct_goodBelief a hg)

/-- "Every measurement of the trace that performs an update favors
hypothesis 1": at each position holding a tick, if that tick senses
and updates, its `err1` is below its `err2`. -/
def FavorsH1At (s : SimState) (acts : List Act) (k : ℕ) : Prop :=
  match acts[k]? with
  | some (Act.tick inp) =>
      tickSenses (runTrace s (acts.take k)) inp →
        1e-9 < tickSum (runTrace s (acts.take k)) inp →
        (tickMeas (runTrace s (acts.take k)) inp).err1 <
          (tickMeas (runTrace s (acts.take k)) inp).err2
  | _ => True

/-- No reset fires at position `k` of the trace: the step is not a
manual reset, and a tick step does not cross the 28 s auto-loop
boundary. -/
def NoResetAt (s : SimState) (acts : List Act) (k : ℕ) : Prop :=
  match acts[k]? with
  | some (Act.tick inp) =>
      (runTrace s (acts.take k)).elapsed + tickDt inp ≤ 28
  | some (Act.reset _ _ _) => False
  | _ => True

/-- C5 as the spec states it: along any run whose updating sense
events all favor hypothesis 1, `w1` is non-decreasing. -/
def C5_claim : Prop :=
  ∀ (s : SimState) (acts : List Act), GoodBelief s →
    (∀ k, k < acts.length → FavorsH1At s acts k) →
    ∀ k m, k ≤ m → m ≤ acts.length →
      (runTrace s (acts.take k)).belief.1 ≤
        (runTrace s (acts.take m)).belief.1

/-- C5 (amended): the monotonicity additionally requires that no reset
(manual, or the 28 s auto-loop) fires inside the span. -/
theorem C5_monotone_amended (s : SimState) (acts : List Act)
    (hg : GoodBelief s)
    (hfav : ∀ k, k < acts.length → FavorsH1At s acts k)
    (hnr : ∀ k, k < acts.length → NoResetAt s acts k) :
    ∀ k m, k ≤ m → m ≤ acts.length →
      (runTrace s (acts.take k)).belief.1 ≤
        (runTrace s (acts.take m)).belief.1 := by
  have hstep : ∀ j, j < acts.length →
      (runTrace s (acts.take j)).belief.1 ≤
        (runTrace s (acts.take (j + 1))).belief.1 := by
    intro j hj
    have htake : acts.take (j + 1) = acts.take j ++ [acts[j]] := by
      rw [List.take_succ, List.getElem?_eq_getElem hj]
      rfl
    rw [htake, runTrace_append]
    have hgj : GoodBelief (runTrace s (acts.take j)) :=
      runTrace_goodBelief _ _ hg
    have hf := hfav j hj
    have hn := hnr j hj
    rw [FavorsH1At, List.getElem?_eq_getElem hj] at hf
    rw [NoResetAt, List.getElem?_eq_getElem hj] at hn
    cases hA : acts[j] with
    | tick inp =>
      rw [hA] at hf hn
      show (runTrace s (acts.take j)).belief.1 ≤
        (tick (runTrace s (acts.take j)) inp).belief.1
      exact tick_w1_mono hgj hn hf
    | start => exact le_rfl
    | pause => exact le_rfl
    | reset p m c =>
      rw [hA] at hn
      exact hn.elim
  have hchain : ∀ d k, k + d ≤ acts.length →
      (runTrace s (acts.take k)).belief.1 ≤
        (runTrace s (acts.take (k + d))).belief.1 := by
    intro d
    induction d with
    | zero => intro k _; exact le_rfl
    | succ d ih =>
      intro k h
      calc (runTrace s (acts.take k)).belief.1 ≤
            (runTrace s (acts.take (k + d))).belief.1 := ih k (by omega)
      _ ≤ (runTrace s (acts.take (k + d + 1))).belief.1 :=
            hstep (k + d) (by omega)
  intro k m hkm hm
  have := hchain (m - k) k (by omega)
  rwa [Nat.add_sub_cancel' hkm] at this

/-- At the pose `(172.5, 150, 0)` (one marching step past the vantage
entry) predictions 1 and 2 genuinely differ, so the zero-noise
measurement strictly favors hypothesis 1. -/
theorem senseMeas_172_err2_pos : 0 < (senseMeas ⟨172.5, 150, 0⟩ 0).err2 := by
  have hπ := pi_pos
  have ha0 : (0:ℝ) < arctan (90/147.5) := by
    rw [← Real.arctan_zero]
    exact Real.arctan_strictMono (by norm_num)
  have ha2 : arctan (90/147.5) < π/2 := Real.arctan_lt_pi_div_two _
  have hb0 : (0:ℝ) < arctan (230/147.5) := by
    rw [← Real.arctan_zero]
    exact Real.arctan_strictMono (by norm_num)
  have hb2 : arctan (230/147.5) < π/2 := Real.arctan_lt_pi_div_two _
  have hab : arctan (90/147.5) < arctan (230/147.5) :=
    Real.arctan_strictMono (by norm_num)
  have hp1 : wrapPi (atan2 (BEACON.y - (⟨172.5, 150, 0⟩ : Robot).y)
      (BEACON.x - (⟨172.5, 150, 0⟩ : Robot).x) -
      (⟨172.5, 150, 0⟩ : Robot).theta) = -arctan (90/147.5) := by
    rw [show BEACON.y - (⟨172.5, 150, 0⟩ : Robot).y = -90 by norm_num [BEACON],
      show BEACON.x - (⟨172.5, 150, 0⟩ : Robot).x = 147.5 by norm_num [BEACON],
      show (⟨172.5, 150, 0⟩ : Robot).theta = 0 from rfl, sub_zero,
      atan2_pos_x (by norm_num),
      show (-90:ℝ)/147.5 = -(90/147.5) by norm_num, Real.arctan_neg]
    exact wrapPi_of_mem (by linarith) (by linarith)
  have hgh : clamp ((⟨172.5, 150, 0⟩ : Robot).y + SHIFT_Y) 10 (WORLD_H - 10) =
      290 := by
    rw [show (⟨172.5, 150, 0⟩ : Robot).y + SHIFT_Y = 290 by
      norm_num [SHIFT_Y]]
    rw [show WORLD_H - 10 = (290:ℝ) by norm_num [WORLD_H]]
    exact clamp_of_mem (by norm_num) le_rfl
  have hp2 : wrapPi (atan2 (BEACON.y - 290)
      (BEACON.x - (⟨172.5, 150, 0⟩ : Robot).x) -
      (⟨172.5, 150, 0⟩ : Robot).theta) = -arctan (230/147.5) := by
    rw [show BEACON.y - (290:ℝ) = -230 by norm_num [BEACON],
      show BEACON.x - (⟨172.5, 150, 0⟩ : Robot).x = 147.5 by norm_num [BEACON],
      show (⟨172.5, 150, 0⟩ : Robot).theta = 0 from rfl, sub_zero,
      atan2_pos_x (by norm_num),
      show (-230:ℝ)/147.5 = -(230/147.5) by norm_num, Real.arctan_neg]
    exact wrapPi_of_mem (by linarith) (by linarith)
  simp only [senseMeas]
  rw [zero_mul, add_zero, wrapPi_wrapPi, hp1, hgh, hp2, angleDiff]
  rw [show -arctan (90/147.5) - -arctan (230/147.5) =
    arctan (230/147.5) - arctan (90/147.5) by ring]
  rw [wrapPi_of_mem (by linarith) (by linarith)]
  rw [abs_of_pos (by linarith)]
  linarith

/-- The pre-reset sense state of the C5 counterexample run. -/
def sC5 : SimState := marchSt 150 "IDLE" none 27.6 1 (0.699, 0.301)

/-- The same state away from the auto-loop boundary (used for the
amended witness). -/
def sC5w : SimState := marchSt 150 "IDLE" none 0 1 (0.699, 0.301)

theorem sC5_belief_unconfident :
    |(0.699:ℝ) - 0.301| < CONF_THRESH := by
  norm_num [CONF_THRESH, abs_lt]

theorem sC5_doSense (el : ℝ) :
    tickDoSense (marchSt 150 "IDLE" none el 1 (0.699, 0.301)) inTick := by
  rw [tickDoSense_march_iff sC5_belief_unconfident (by norm_num) (by norm_num)
    (by norm_num) (by norm_num)]
  norm_num

theorem sC5_meas_favors (el : ℝ) :
    (tickMeas (marchSt 150 "IDLE" none el 1 (0.699, 0.301)) inTick).err1 <
      (tickMeas (marchSt 150 "IDLE" none el 1 (0.699, 0.301)) inTick).err2 := by
  rw [tickMeas, tickRobot_march sC5_belief_unconfident (by norm_num)
    (by norm_num) (by norm_num)]
  rw [show (150:ℝ) + 22.5 = 172.5 by norm_num]
  show (senseMeas ⟨172.5, 150, 0⟩ 0).err1 < (senseMeas ⟨172.5, 150, 0⟩ 0).err2
  rw [senseMeas_err1_zero]
  exact senseMeas_172_err2_pos

theorem sC5_goodBelief (el : ℝ) :
    GoodBelief (marchSt 150 "IDLE" none el 1 (0.699, 0.301)) := by
  norm_num [GoodBelief, GoodPair, marchSt]

/-- C5 (counterexample): along the two-tick run from `sC5`, every
updating sense event favors hypothesis 1, yet `w1` drops from at least
`0.699` back to `0.5` because the second tick crosses the 28 s
auto-loop reset. -/
theorem C5_monotone_claim_false : ¬ C5_claim := by
  intro hcl
  have hruns : tickRuns sC5 inTick := tickRuns_marchSt _ _ _ _ _ _
  have hds : tickDoSense sC5 inTick := sC5_doSense 27.6
  have h28 : sC5.elapsed + tickDt inTick ≤ 28 := by
    rw [tickDt_inTick]
    norm_num [sC5, marchSt]
  have hfav : ∀ k, k < ([Act.tick inTick, Act.tick inTick] : List Act).length →
      FavorsH1At sC5 [Act.tick inTick, Act.tick inTick] k := by
    intro k hk
    have hk2 : k < 2 := by simpa using hk
    interval_cases k
    · intro _ _
      exact sC5_meas_favors 27.6
    · intro hsen _
      obtain ⟨_, hle, _⟩ := hsen.2
      rw [show runTrace sC5 (([Act.tick inTick, Act.tick inTick] :
          List Act).take 1) = tick sC5 inTick from rfl,
        tick_eq_sense hruns hds h28] at hle
      rw [tickDt_inTick] at hle
      norm_num [SENSE_PERIOD] at hle
  have h := hcl sC5 [Act.tick inTick, Act.tick inTick] (sC5_goodBelief 27.6)
    hfav 1 2 (by norm_num) (by norm_num)
  have hW1 : (0.699:ℝ) ≤
      (runTrace sC5 (([Act.tick inTick, Act.tick inTick] :
        List Act).take 1)).belief.1 := by
    rw [show runTrace sC5 (([Act.tick inTick, Act.tick inTick] :
        List Act).take 1) = tick sC5 inTick from rfl,
      tick_eq_sense hruns hds h28]
    show (0.699:ℝ) ≤ (beliefUpdate sC5.belief (tickMeas sC5 inTick)).1
    exact beliefUpdate_w1_mono (sC5_goodBelief 27.6)
      (tickMeas_err1_nonneg _ _) (sC5_meas_favors 27.6)
  have hW2 : (runTrace sC5 (([Act.tick inTick, Act.tick inTick] :
      List Act).take 2)).belief.1 = 0.5 := by
    rw [show runTrace sC5 (([Act.tick inTick, Act.tick inTick] :
        List Act).take 2) = tick (tick sC5 inTick) inTick from rfl,
      tick_eq_sense hruns hds h28]
    rw [tick_eq_reset ⟨rfl, by rw [tickDt_inTick]; norm_num⟩
      (by norm_num [sC5, marchSt, tickDt, inTick])]
    norm_num [resetState, computeInitialBelief, sC5, marchSt]
  rw [hW2] at h
  linarith

/-- C5 amended, instantiated on the one-tick confirming run from
`sC5w`. -/
theorem C5_monotone_amended_witness :
    GoodBelief sC5w ∧
      (∀ k, k < ([Act.tick inTick] : List Act).length →
        FavorsH1At sC5w [Act.tick inTick] k) ∧
      (∀ k, k < ([Act.tick inTick] : List Act).length →
        NoResetAt sC5w [Act.tick inTick] k) ∧
      (runTrace sC5w (([Act.tick inTick] : List Act).take 0)).belief.1 ≤
        (runTrace sC5w (([Act.tick inTick] : List Act).take 1)).belief.1 := by
  have hg : GoodBelief sC5w := sC5_goodBelief 0
  have hfav : ∀ k, k < ([Act.tick inTick] : List Act).length →
      FavorsH1At sC5w [Act.tick inTick] k := by
    intro k hk
    have hk1 : k < 1 := by simpa using hk
    interval_cases k
    intro _ _
    exact sC5_meas_favors 0
  have hnr : ∀ k, k < ([Act.tick inTick] : List Act).length →
      NoResetAt sC5w [Act.tick inTick] k := by
    intro k hk
    have hk1 : k < 1 := by simpa using hk
    interval_cases k
    show sC5w.elapsed + tickDt inTick ≤ 28
    rw [tickDt_inTick]
    norm_num [sC5w, marchSt]
  exact ⟨hg, hfav, hnr,
    C5_monotone_amended sC5w [Act.tick inTick] hg hfav hnr 0 1 (by norm_num)
      (by norm_num)⟩

/-! ### C2 witness: a concrete sensing tick of a real run -/

theorem tickMeas_err1_zero_inTick (s : SimState) :
    (tickMeas s inTick).err1 = 0 := by
  rw [tickMeas]
  exact senseMeas_err1_zero _

/-- When the measurement matches prediction 1 exactly, the
pre-normalization sum is at least `w1`. -/
theorem tickSum_ge_w1 (s : SimState) (inp : TickIn)
    (h1 : (tickMeas s inp).err1 = 0) (hb2 : 0 ≤ s.belief.2) :
    s.belief.1 ≤ tickSum s inp := by
  have hw1 : (temperedWeights s.belief (tickMeas s inp)).1 = s.belief.1 := by
    show s.belief.1 *
        Real.exp (-0.5 * ((tickMeas s inp).err1 / (tickMeas s inp).sigma) *
          ((tickMeas s inp).err1 / (tickMeas s inp).sigma)) ^ ALPHA =
      s.belief.1
    rw [h1, zero_div, mul_zero, Real.exp_zero, Real.one_rpow, mul_one]
  have hw2 : 0 ≤ (temperedWeights s.belief (tickMeas s inp)).2 :=
    mul_nonneg hb2 (Real.rpow_nonneg (Real.exp_nonneg _) _)
  rw [tickSum, hw1]
  exact le_add_of_nonneg_right hw2

def S3 : SimState :=
  marchSt 127.5 "GO_TO_V (active localization)" none 0.75 0.75 (0.5, 0.5)

theorem belief_half_unconfident : |(0.5:ℝ) - 0.5| < CONF_THRESH := by
  norm_num [CONF_THRESH]

theorem march_reach_S3 :
    Reaches (fun _ => True) (resetState PriorMode.WEAK SimMode.BIDIR true) S3 := by
  have h0 : applyAct (resetState PriorMode.WEAK SimMode.BIDIR true) Act.start =
      marchSt 60 "IDLE" none 0 0 (0.5, 0.5) := rfl
  have h1 : tick (marchSt 60 "IDLE" none 0 0 (0.5, 0.5)) inTick =
      marchSt 82.5 "GO_TO_V (active localization)" none 0.25 0.25
        (0.5, 0.5) := by
    rw [tick_march_nosense belief_half_unconfident (by norm_num) (by norm_num)
      (by norm_num) (by norm_num) _ _ (by norm_num) (by norm_num)]
    norm_num
  have h2 : tick (marchSt 82.5 "GO_TO_V (active localization)" none 0.25 0.25
      (0.5, 0.5)) inTick =
      marchSt 105 "GO_TO_V (active localization)" none 0.5 0.5 (0.5, 0.5) := by
    rw [tick_march_nosense belief_half_unconfident (by norm_num) (by norm_num)
      (by norm_num) (by norm_num) _ _ (by norm_num) (by norm_num)]
    norm_num
  have h3 : tick (marchSt 105 "GO_TO_V (active localization)" none 0.5 0.5
      (0.5, 0.5)) inTick = S3 := by
    rw [tick_march_nosense belief_half_unconfident (by norm_num) (by norm_num)
      (by norm_num) (by norm_num) _ _ (by norm_num) (by norm_num)]
    norm_num [S3]
  have r0 : Reaches (fun _ => True)
      (resetState PriorMode.WEAK SimMode.BIDIR true)
      (marchSt 60 "IDLE" none 0 0 (0.5, 0.5)) := by
    rw [← h0]
    exact Reaches.step Reaches.refl trivial
  have r1 : Reaches (fun _ => True)
      (resetState PriorMode.WEAK SimMode.BIDIR true)
      (marchSt 82.5 "GO_TO_V (active localization)" none 0.25 0.25
        (0.5, 0.5)) := by
    rw [← h1]
    exact @Reaches.step _ _ _ (Act.tick inTick) r0 trivial
  have r2 : Reaches (fun _ => True)
      (resetState PriorMode.WEAK SimMode.BIDIR true)
      (marchSt 105 "GO_TO_V (active localization)" none 0.5 0.5 (0.5, 0.5)) := by
    rw [← h2]
    exact @Reaches.step _ _ _ (Act.tick inTick) r1 trivial
  rw [← h3]
  exact @Reaches.step _ _ _ (Act.tick inTick) r2 trivial

theorem S3_senses : tickSenses S3 inTick := by
  refine ⟨tickRuns_marchSt _ _ _ _ _ _, ?_⟩
  show tickDoSense (marchSt 127.5 "GO_TO_V (active localization)" none 0.75
    0.75 (0.5, 0.5)) inTick
  rw [tickDoSense_march_iff belief_half_unconfident (by norm_num) (by norm_num)
    (by norm_num) (by norm_num)]
  norm_num

theorem S3_sum_pos : 1e-9 < tickSum S3 inTick := by
  have h1 : (tickMeas S3 inTick).err1 = 0 := tickMeas_err1_zero_inTick S3
  have h := tickSum_ge_w1 S3 inTick h1 (by norm_num [S3, marchSt])
  have hb : S3.belief.1 = 0.5 := rfl
  rw [hb] at h
  linarith

/-- C2, instantiated at a sense event of the concrete run that drives
the robot from the start pose into the vantage region. -/
theorem C2_belief_normalized_witness :
    Reaches (fun _ => True) (resetState PriorMode.WEAK SimMode.BIDIR true) S3 ∧
      tickSenses S3 inTick ∧ 1e-9 < tickSum S3 inTick ∧
      (|((tick S3 inTick).belief.1 + (tick S3 inTick).belief.2) - 1| ≤ 1e-6 ∧
        0 ≤ (tick S3 inTick).belief.1 ∧ 0 ≤ (tick S3 inTick).belief.2) :=
  ⟨march_reach_S3, S3_senses, S3_sum_pos,
    C2_belief_normalized PriorMode.WEAK SimMode.BIDIR true S3 inTick
      march_reach_S3 S3_senses S3_sum_pos⟩

/-! ## Pathfinder (source: astar.js) -/

section Astar

variable {V : Type} [DecidableEq V]

structure NodeData (V : Type) where
  x : ℝ
  y : ℝ
  neighbors : List V

/-- The `nodes` object passed to `findPath`: an id-keyed collection of
`{x, y, neighbors}` entries. -/
def AGraph (V : Type) := List (V × NodeData V)

def keys (g : AGraph V) : List V := g.map Prod.fst

/-- `nodes[id]` (defaulting on absent ids; all theorems assume the
accessed ids are present). -/
def nd (g : AGraph V) (i : V) : NodeData V :=
  ((g : List (V × NodeData V)).lookup i).getD ⟨0, 0, []⟩

/-- `Math.hypot(nodes[i].x - nodes[j].x, nodes[i].y - nodes[j].y)`:
the Euclidean edge length used during neighbor relaxation. -/
def edgeW (g : AGraph V) (i j : V) : ℝ :=
  hypot ((nd g i).x - (nd g j).x) ((nd g i).y - (nd g j).y)

/-- The heuristic `h(id)`: Euclidean distance to the goal node. -/
def hEuc (g : AGraph V) (endId i : V) : ℝ :=
  hypot ((nd g i).x - (nd g endId).x) ((nd g i).y - (nd g endId).y)

/-- The mutable search state (`openSet`, `cameFrom`, `gScore`,
`fScore`); `Infinity` is modelled by `⊤ : WithTop ℝ`. -/
structure AState (V : Type) where
  openSet : List V
  cameFrom : V → Option V
  gScore : V → WithTop ℝ
  fScore : V → WithTop ℝ

/-- `openSet.reduce((a, b) => fScore[a] < fScore[b] ? a : b)`. -/
def reduceMinF (f : V → WithTop ℝ) (x : V) (xs : List V) : V :=
  xs.foldl (fun a b => if f a < f b then a else b) x

/-- The path-reconstruction loop
(`while (cameFrom[current]) { current = cameFrom[current]; path.unshift(current); }`),
with fuel bounding the chain length (the chain is provably shorter
than the number of keys). -/
def reconstruct (cf : V → Option V) : ℕ → V → List V → List V
  | 0, _, path => path
  | fuel + 1, current, path =>
    match cf current with
    | none => path
    | some c => reconstruct cf fuel c (c :: path)

/-- Relaxation of the single edge `current → nextId` (the body of the
`for (let nextId of neighbors)` loop). -/
def relaxEdge (g : AGraph V) (endId current : V) (st : AState V)
    (nextId : V) : AState V :=
  let dist := edgeW g current nextId
  let tentativeG := st.gScore current + (dist : WithTop ℝ)
  if tentativeG < st.gScore nextId then
    { openSet :=
        if nextId ∈ st.openSet then st.openSet else st.openSet ++ [nextId]
      cameFrom := Function.update st.cameFrom nextId (some current)
      gScore := Function.update st.gScore nextId tentativeG
      fScore := Function.update st.fScore nextId
        (tentativeG + ((hEuc g endId nextId : ℝ) : WithTop ℝ)) }
  else st

/-- Relaxation of all edges out of `current`, in neighbor-list
order. -/
def relaxAll (g : AGraph V) (endId current : V) (st : AState V) : AState V :=
  (nd g current).neighbors.foldl (relaxEdge g endId current) st

/-- The main `while (openSet.length > 0)` loop, with fuel; `none`
means the fuel ran out (provably never for the fuel `findPath`
supplies), `some none` is the `return null` branch, and
`some (some path)` is the reconstructed route. -/
def astarLoop (g : AGraph V) (endId : V) : ℕ → AState V → Option (Option (List V))
  | 0, _ => none
  | fuel + 1, st =>
    match st.openSet with
    | [] => some none
    | x :: xs =>
      let current := reduceMinF st.fScore x xs
      if current = endId then
        some (some (reconstruct st.cameFrom (keys g).length current [current]))
      else
        astarLoop g endId fuel
          (relaxAll g endId current { st with openSet := st.openSet.erase current })

/-- The state after the initialization block of `findPath`. -/
def initState (g : AGraph V) (startId endId : V) : AState V :=
  { openSet := [startId]
    cameFrom := fun _ => none
    gScore := Function.update (fun _ => (⊤ : WithTop ℝ)) startId (0 : ℝ)
    fScore := Function.update (fun _ => (⊤ : WithTop ℝ)) startId
      ((hEuc g endId startId : ℝ) : WithTop ℝ) }

/-- `findPath(nodes, startId, endId)`. -/
def findPath (g : AGraph V) (startId endId : V) : Option (List V) :=
  match astarLoop g endId
    ((keys g).length * ((keys g).length + 1) + 2) (initState g startId endId) with
  | none => none
  | some r => r

/-! ### Routes and shortest distance (specification side) -/

/-- An ordered route through the graph from `a` to `b`. -/
def IsRoute (g : AGraph V) (p : List V) (a b : V) : Prop :=
  p ≠ [] ∧ p.head? = some a ∧ p.getLast? = some b ∧
    (∀ v ∈ p, v ∈ keys g) ∧ p.Chain' (fun u v => v ∈ (nd g u).neighbors)

/-- Cumulative Euclidean edge length of a route. -/
def routeCost (g : AGraph V) : List V → ℝ
  | [] => 0
  | [_] => 0
  | a :: b :: rest => edgeW g a b + routeCost g (b :: rest)

instance (g : AGraph V) (p : List V) (a b : V) : Decidable (IsRoute g p a b) := by
  unfold IsRoute
  infer_instance

/-- All duplicate-free routes from `a` to `b` (every such route is a
permutation of a sublist of the key list). -/
def routeCandidates (g : AGraph V) (a b : V) : List (List V) :=
  ((keys g).sublists.flatMap List.permutations).filter
    (fun p => decide (IsRoute g p a b ∧ p.Nodup))

/-- Shortest-route distance from `a` to `b` (`⊤` when unreachable). -/
def delta (g : AGraph V) (a b : V) : WithTop ℝ :=
  ((routeCandidates g a b).map
    (fun p => ((routeCost g p : ℝ) : WithTop ℝ))).foldr min ⊤

/-! ### Elementary facts about routes and `delta` -/

theorem foldrMin_le {l : List (WithTop ℝ)} {x : WithTop ℝ} (h : x ∈ l) :
    l.foldr min ⊤ ≤ x := by
  induction l with
  | nil => cases h
  | cons a t ih =>
    rcases List.mem_cons.mp h with rfl | h'
    · exact min_le_left _ _
    · exact le_trans (min_le_right _ _) (ih h')

theorem foldrMin_top_or_mem (l : List (WithTop ℝ)) :
    l.foldr min ⊤ = ⊤ ∨ l.foldr min ⊤ ∈ l := by
  induction l with
  | nil => exact Or.inl rfl
  | cons a t ih =>
    rw [List.foldr_cons]
    rcases le_total a (t.foldr min ⊤) with h | h
    · rw [min_eq_left h]
      exact Or.inr (List.mem_cons_self _ _)
    · rw [min_eq_right h]
      rcases ih with h' | h'
      · exact Or.inl h'
      · exact Or.inr (List.mem_cons_of_mem _ h')

theorem foldrMin_nonneg {l : List (WithTop ℝ)}
    (h : ∀ x ∈ l, (0 : WithTop ℝ) ≤ x) : (0 : WithTop ℝ) ≤ l.foldr min ⊤ := by
  induction l with
  | nil => exact le_top
  | cons a t ih =>
    rw [List.foldr_cons]
    exact le_min (h a (List.mem_cons_self _ _))
      (ih fun x hx => h x (List.mem_cons_of_mem _ hx))

theorem edgeW_nonneg (g : AGraph V) (i j : V) : 0 ≤ edgeW g i j :=
  hypot_nonneg _ _

theorem routeCost_nonneg (g : AGraph V) (p : List V) : 0 ≤ routeCost g p := by
  induction p with
  | nil => norm_num [routeCost]
  | cons a t ih =>
    cases t with
    | nil => norm_num [routeCost]
    | cons b r =>
      show 0 ≤ edgeW g a b + routeCost g (b :: r)
      exact add_nonneg (edgeW_nonneg g a b) ih

theorem delta_nonneg (g : AGraph V) (a b : V) :
    (0 : WithTop ℝ) ≤ delta g a b := by
  apply foldrMin_nonneg
  intro x hx
  rw [List.mem_map] at hx
  obtain ⟨p, _, rfl⟩ := hx
  exact_mod_cast routeCost_nonneg g p

theorem delta_le_cost_nodup {g : AGraph V} {p : List V} {a b : V}
    (hroute : IsRoute g p a b) (hnd : p.Nodup) :
    delta g a b ≤ ((routeCost g p : ℝ) : WithTop ℝ) := by
  apply foldrMin_le
  rw [List.mem_map]
  refine ⟨p, ?_, rfl⟩
  rw [routeCandidates, List.mem_filter, decide_eq_true_eq]
  refine ⟨?_, hroute, hnd⟩
  rw [List.mem_flatMap]
  have hsub : p ⊆ keys g := fun v hv => hroute.2.2.2.1 v hv
  obtain ⟨l', hperm, hsl⟩ := hnd.subperm hsub
  exact ⟨l', List.mem_sublists.mpr hsl,
    List.mem_permutations.mpr hperm.symm⟩

theorem delta_attained {g : AGraph V} {a b : V} (h : delta g a b ≠ ⊤) :
    ∃ p, IsRoute g p a b ∧ p.Nodup ∧
      delta g a b = ((routeCost g p : ℝ) : WithTop ℝ) := by
  rcases foldrMin_top_or_mem ((routeCandidates g a b).map
    (fun p => ((routeCost g p : ℝ) : WithTop ℝ))) with h' | h'
  · exact absurd h' h
  · rw [List.mem_map] at h'
    obtain ⟨p, hp, heq⟩ := h'
    rw [routeCandidates, List.mem_filter, decide_eq_true_eq] at hp
    exact ⟨p, hp.2.1, hp.2.2, heq.symm⟩

theorem isRoute_singleton {g : AGraph V} {a : V} (ha : a ∈ keys g) :
    IsRoute g [a] a a :=
  ⟨by simp, rfl, rfl, by simpa, List.chain'_singleton a⟩

theorem delta_self {g : AGraph V} {a : V} (ha : a ∈ keys g) :
    delta g a a = 0 := by
  refine le_antisymm ?_ (delta_nonneg g a a)
  have h := delta_le_cost_nodup (isRoute_singleton ha) (List.nodup_singleton a)
  rw [show routeCost g [a] = 0 from rfl] at h
  exact_mod_cast h

theorem routeCost_append (g : AGraph V) (l : List V) (x : V) (r : List V) :
    routeCost g (l ++ x :: r) = routeCost g (l ++ [x]) + routeCost g (x :: r) := by
  induction l with
  | nil =>
    show routeCost g (x :: r) = routeCost g [x] + routeCost g (x :: r)
    rw [show routeCost g [x] = 0 from rfl, zero_add]
  | cons a l' ih =>
    cases l' with
    | nil =>
      show edgeW g a x + routeCost g (x :: r) =
        (edgeW g a x + routeCost g [x]) + routeCost g (x :: r)
      rw [show routeCost g [x] = 0 from rfl]
      ring
    | cons b l'' =>
      show edgeW g a b + routeCost g ((b :: l'') ++ x :: r) =
        (edgeW g a b + routeCost g ((b :: l'') ++ [x])) + routeCost g (x :: r)
      rw [ih]
      ring

theorem routeCost_concat (g : AGraph V) :
    ∀ (p : List V) (u v : V), p.getLast? = some u →
      routeCost g (p ++ [v]) = routeCost g p + edgeW g u v := by
  intro p
  induction p with
  | nil => intro u v h; cases h
  | cons a t ih =>
    intro u v hlast
    cases t with
    | nil =>
      have hau : a = u := by
        have : some a = some u := hlast
        exact Option.some_injective _ this
      subst hau
      show edgeW g a v + routeCost g [v] = routeCost g [a] + edgeW g a v
      rw [show routeCost g [v] = 0 from rfl, show routeCost g [a] = 0 from rfl]
      ring
    | cons b t' =>
      have hl' : (b :: t').getLast? = some u := by
        rwa [List.getLast?_cons_cons] at hlast
      show edgeW g a b + routeCost g ((b :: t') ++ [v]) =
        (edgeW g a b + routeCost g (b :: t')) + edgeW g u v
      rw [ih u v hl']
      ring

theorem isRoute_head {g : AGraph V} {p : List V} {a b : V}
    (h : IsRoute g p a b) : ∃ t, p = a :: t := by
  obtain ⟨hne, hh, _, _, _⟩ := h
  cases p with
  | nil => exact absurd rfl hne
  | cons x t =>
    have : x = a := Option.some_injective _ hh
    exact ⟨t, by rw [this]⟩

theorem isRoute_concat {g : AGraph V} {p : List V} {a u v : V}
    (h : IsRoute g p a u) (hv : v ∈ (nd g u).neighbors) (hvk : v ∈ keys g) :
    IsRoute g (p ++ [v]) a v := by
  obtain ⟨hne, hh, hl, hmem, hch⟩ := h
  refine ⟨by simp, ?_, ?_, ?_, ?_⟩
  · cases p with
    | nil => exact absurd rfl hne
    | cons x t => exact hh
  · rw [List.getLast?_concat]
  · intro w hw
    rcases List.mem_append.mp hw with hw' | hw'
    · exact hmem w hw'
    · rw [List.mem_singleton.mp hw']
      exact hvk
  · rw [List.chain'_append]
    refine ⟨hch, List.chain'_singleton v, ?_⟩
    intro x hx y hy
    have hxu : x = u := by
      rw [hl] at hx
      exact Option.some_injective _ hx.symm
    have hyv : y = v := by
      have : ([v] : List V).head? = some v := rfl
      rw [this] at hy
      exact Option.some_injective _ hy.symm
    rw [hxu, hyv]
    exact hv

/-- Cycle removal: every route contains a duplicate-free route between
the same endpoints of no greater cost. -/
theorem route_to_nodup (g : AGraph V) :
    ∀ (n : ℕ) (p : List V) (a b : V), p.length ≤ n → IsRoute g p a b →
      ∃ q, IsRoute g q a b ∧ q.Nodup ∧ routeCost g q ≤ routeCost g p ∧
        q ⊆ p := by
  intro n
  induction n with
  | zero =>
    intro p a b hlen hr
    obtain ⟨t, rfl⟩ := isRoute_head hr
    simp at hlen
  | succ n ih =>
    intro p a b hlen hr
    obtain ⟨t, rfl⟩ := isRoute_head hr
    obtain ⟨hne, hh, hl, hmem, hch⟩ := hr
    by_cases hd : a ∈ t
    · obtain ⟨u, w, rfl⟩ := List.append_of_mem hd
      have hsuf : (a :: w) <:+ (a :: (u ++ a :: w)) :=
        List.IsSuffix.trans (List.suffix_append u (a :: w))
          (List.suffix_cons a (u ++ a :: w))
      have hroute' : IsRoute g (a :: w) a b := by
        refine ⟨by simp, rfl, ?_, ?_, hch.suffix hsuf⟩
        · cases w with
          | nil =>
            rw [show ((a :: (u ++ a :: [])) : List V) =
              ((a :: u) ++ [a]) from by simp] at hl
            rw [List.getLast?_concat] at hl
            exact hl
          | cons c w' =>
            rw [show ((a :: (u ++ a :: c :: w')) : List V) =
              ((a :: u ++ [a]) ++ (c :: w')) from by simp] at hl
            rw [List.getLast?_append_of_ne_nil _ (by simp)] at hl
            rw [List.getLast?_cons_cons]
            exact hl
        · intro v hv
          exact hmem v (hsuf.subset hv)
      have hcost' : routeCost g (a :: w) ≤ routeCost g (a :: (u ++ a :: w)) := by
        rw [show ((a :: (u ++ a :: w)) : List V) = ((a :: u) ++ a :: w) from by
          simp]
        rw [routeCost_append]
        have := routeCost_nonneg g ((a :: u) ++ [a])
        linarith
      have hlen' : (a :: w).length ≤ n := by
        simp at hlen ⊢
        omega
      obtain ⟨q, hq1, hq2, hq3, hq4⟩ := ih (a :: w) a b hlen' hroute'
      refine ⟨q, hq1, hq2, le_trans hq3 hcost', fun v hv => hsuf.subset (hq4 hv)⟩
    · cases t with
      | nil =>
        refine ⟨[a], ⟨by simp, rfl, hl, hmem, List.chain'_singleton a⟩,
          List.nodup_singleton a, le_rfl, fun v hv => hv⟩
      | cons c t' =>
        have hroute_t : IsRoute g (c :: t') c b := by
          refine ⟨by simp, rfl, ?_, ?_, (List.chain'_cons.mp hch).2⟩
          · rw [List.getLast?_cons_cons] at hl
            exact hl
          · intro v hv
            exact hmem v (List.mem_cons_of_mem _ hv)
        have hlen' : (c :: t').length ≤ n := by
          simp at hlen ⊢
          omega
        obtain ⟨q, hq1, hq2, hq3, hq4⟩ := ih (c :: t') c b hlen' hroute_t
        obtain ⟨q', rfl⟩ := isRoute_head hq1
        have hanq : a ∉ (c :: q' : List V) := fun hin => hd (hq4 hin)
        refine ⟨a :: c :: q', ?_, ?_, ?_, ?_⟩
        · refine ⟨by simp, rfl, ?_, ?_, ?_⟩
          · rw [List.getLast?_cons_cons]
            exact hq1.2.2.1
          · intro v hv
            rcases List.mem_cons.mp hv with rfl | hv'
            · exact hmem v (List.mem_cons_self _ _)
            · exact hmem v (List.mem_cons_of_mem _ (hq4 hv'))
          · exact List.chain'_cons.mpr ⟨(List.chain'_cons.mp hch).1, hq1.2.2.2.2⟩
        · exact List.nodup_cons.mpr ⟨hanq, hq2⟩
        · show edgeW g a c + routeCost g (c :: q') ≤
            edgeW g a c + routeCost g (c :: t')
          linarith [hq3]
        · intro v hv
          rcases List.mem_cons.mp hv with rfl | hv'
          · exact List.mem_cons_self _ _
          · exact List.mem_cons_of_mem _ (hq4 hv')

theorem delta_le_cost {g : AGraph V} {p : List V} {a b : V}
    (h : IsRoute g p a b) :
    delta g a b ≤ ((routeCost g p : ℝ) : WithTop ℝ) := by
  obtain ⟨q, hq, hnd, hc, _⟩ := route_to_nodup g p.length p a b le_rfl h
  exact le_trans (delta_le_cost_nodup hq hnd) (by exact_mod_cast hc)

theorem delta_triangle {g : AGraph V} {s u v : V}
    (hv1 : v ∈ (nd g u).neighbors) (hvk : v ∈ keys g) :
    delta g s v ≤ delta g s u + ((edgeW g u v : ℝ) : WithTop ℝ) := by
  rcases eq_or_ne (delta g s u) ⊤ with h | h
  · rw [h, top_add]
    exact le_top
  · obtain ⟨p, hp, hnd, hc⟩ := delta_attained h
    calc delta g s v ≤ ((routeCost g (p ++ [v]) : ℝ) : WithTop ℝ) :=
          delta_le_cost (isRoute_concat hp hv1 hvk)
    _ = ((routeCost g p + edgeW g u v : ℝ) : WithTop ℝ) := by
          rw [routeCost_concat g p u v hp.2.2.1]
    _ = delta g s u + ((edgeW g u v : ℝ) : WithTop ℝ) := by
          rw [hc]
          push_cast
          rfl

/-! ### C9: open-set extraction tie-break -/

/-- Modelled from the spec's words ("first minimal-f node encountered in
iteration order wins ties"): the minimum f-value over the open set. -/
def listMinF (f : V → WithTop ℝ) (x : V) (xs : List V) : WithTop ℝ :=
  xs.foldl (fun m b => min m (f b)) (f x)

open Classical in
/-- Modelled from the spec's words: the first element of the list whose
f-value equals `m` (defaulting to `d`). -/
def firstWith (f : V → WithTop ℝ) (m : WithTop ℝ) : List V → V → V
  | [], d => d
  | a :: t, d => if f a = m then a else firstWith f m t d

/-- Modelled from the spec's words: the first minimal-f node encountered in
the open set's iteration order. -/
def firstMinF (f : V → WithTop ℝ) (x : V) (xs : List V) : V :=
  firstWith f (listMinF f x xs) (x :: xs) x

/-- The claim under test: the extraction `reduce` always returns the FIRST
minimal-f element of the open set. -/
def C9_claim : Prop :=
  ∀ {V : Type} [DecidableEq V] (f : V → WithTop ℝ) (x : V) (xs : List V),
    reduceMinF f x xs = firstMinF f x xs

/-- What `reduceMinF` actually satisfies: it returns a minimal-f element,
and every element strictly AFTER it in the list has strictly larger f —
i.e. it is the LAST minimal-f element in iteration order. -/
theorem reduceMinF_spec (f : V → WithTop ℝ) :
    ∀ (xs : List V) (x : V),
      reduceMinF f x xs ∈ x :: xs ∧
      (∀ z ∈ x :: xs, f (reduceMinF f x xs) ≤ f z) ∧
      ∃ l₁ l₂, x :: xs = l₁ ++ reduceMinF f x xs :: l₂ ∧
        ∀ z ∈ l₂, f (reduceMinF f x xs) < f z := by
  intro xs
  induction xs with
  | nil =>
    intro x
    refine ⟨List.mem_cons_self _ _, ?_, [], [], rfl, by simp⟩
    intro z hz
    rw [List.mem_singleton.mp hz]
    exact le_rfl
  | cons b t ih =>
    intro x
    have hstep : reduceMinF f x (b :: t) =
        reduceMinF f (if f x < f b then x else b) t := rfl
    by_cases hfb : f x < f b
    · rw [hstep, if_pos hfb]
      obtain ⟨hmem, hmin, l₁, l₂, hdec, hgt⟩ := ih x
      refine ⟨?_, ?_, ?_⟩
      · rcases List.mem_cons.mp hmem with h | h
        · rw [h]
          exact List.mem_cons_self _ _
        · exact List.mem_cons_of_mem _ (List.mem_cons_of_mem _ h)
      · intro z hz
        rcases List.mem_cons.mp hz with rfl | hz'
        · exact hmin z (List.mem_cons_self _ _)
        · rcases List.mem_cons.mp hz' with rfl | hz''
          · exact le_of_lt (lt_of_le_of_lt (hmin x (List.mem_cons_self _ _)) hfb)
          · exact hmin z (List.mem_cons_of_mem _ hz'')
      · cases l₁ with
        | nil =>
          have h1 : x = reduceMinF f x t := (List.cons.injEq _ _ _ _).mp hdec |>.1
          have h2 : t = l₂ := (List.cons.injEq _ _ _ _).mp hdec |>.2
          refine ⟨[], b :: t, ?_, ?_⟩
          · rw [List.nil_append, ← h1]
          · intro z hz
            rcases List.mem_cons.mp hz with rfl | hz'
            · rw [← h1]
              exact hfb
            · rw [h2] at hz'
              exact hgt z hz'
        | cons a l₁' =>
          have h1 : x = a := (List.cons.injEq _ _ _ _).mp hdec |>.1
          have h2 : t = l₁' ++ reduceMinF f x t :: l₂ :=
            (List.cons.injEq _ _ _ _).mp hdec |>.2
          exact ⟨x :: b :: l₁', l₂, by rw [List.cons_append, List.cons_append, ← h2],
            hgt⟩
    · rw [hstep, if_neg hfb]
      obtain ⟨hmem, hmin, l₁, l₂, hdec, hgt⟩ := ih b
      have hbx : f b ≤ f x := not_lt.mp hfb
      refine ⟨List.mem_cons_of_mem _ hmem, ?_, x :: l₁, l₂, ?_, hgt⟩
      · intro z hz
        rcases List.mem_cons.mp hz with rfl | hz'
        · exact le_trans (hmin b (List.mem_cons_self _ _)) hbx
        · exact hmin z hz'
      · rw [List.cons_append, ← hdec]

/-- Concrete two-goal graph on which the extraction tie-break is exercised:
node 0 at the origin with neighbors 1 and 2, both at distance 5, and a
nonexistent goal id 5, so after expanding 0 the open set is `[1, 2]` with
equal f-scores 10. -/
def gEx : AGraph ℕ :=
  [(0, ⟨0, 0, [1, 2]⟩), (1, ⟨3, 4, []⟩), (2, ⟨4, 3, []⟩)]

/-- The A* state reached after the first loop iteration on `gEx` from 0
toward 5. -/
def stEx : AState ℕ :=
  relaxAll gEx 5 0 { initState gEx 0 5 with openSet := [] }

theorem hypot_eq_five {a b : ℝ} (h : a ^ 2 + b ^ 2 = 25) : hypot a b = 5 := by
  rw [hypot, h, show (25 : ℝ) = 5 ^ 2 by norm_num,
    Real.sqrt_sq (by norm_num : (0:ℝ) ≤ 5)]

theorem nd_gEx0 : nd gEx 0 = ⟨0, 0, [1, 2]⟩ := rfl

theorem nd_gEx1 : nd gEx 1 = ⟨3, 4, []⟩ := rfl

theorem nd_gEx2 : nd gEx 2 = ⟨4, 3, []⟩ := rfl

theorem nd_gEx5 : nd gEx 5 = ⟨0, 0, []⟩ := rfl

theorem gEx_edge01 : edgeW gEx 0 1 = 5 :=
  hypot_eq_five (by rw [nd_gEx0, nd_gEx1]; norm_num)

theorem gEx_edge02 : edgeW gEx 0 2 = 5 :=
  hypot_eq_five (by rw [nd_gEx0, nd_gEx2]; norm_num)

theorem gEx_h1 : hEuc gEx 5 1 = 5 :=
  hypot_eq_five (by rw [nd_gEx1, nd_gEx5]; norm_num)

theorem gEx_h2 : hEuc gEx 5 2 = 5 :=
  hypot_eq_five (by rw [nd_gEx2, nd_gEx5]; norm_num)

theorem relaxEdge_pos {g : AGraph V} {endId current : V} {st : AState V}
    {nextId : V}
    (h : st.gScore current + ((edgeW g current nextId : ℝ) : WithTop ℝ) <
      st.gScore nextId) :
    relaxEdge g endId current st nextId =
    { openSet := if nextId ∈ st.openSet then st.openSet else
        st.openSet ++ [nextId]
      cameFrom := Function.update st.cameFrom nextId (some current)
      gScore := Function.update st.gScore nextId
        (st.gScore current + ((edgeW g current nextId : ℝ) : WithTop ℝ))
      fScore := Function.update st.fScore nextId
        (st.gScore current + ((edgeW g current nextId : ℝ) : WithTop ℝ) +
          ((hEuc g endId nextId : ℝ) : WithTop ℝ)) } := by
  simp only [relaxEdge]
  rw [if_pos h]

theorem relaxEdge_neg {g : AGraph V} {endId current : V} {st : AState V}
    {nextId : V}
    (h : ¬ st.gScore current + ((edgeW g current nextId : ℝ) : WithTop ℝ) <
      st.gScore nextId) :
    relaxEdge g endId current st nextId = st := by
  simp only [relaxEdge]
  rw [if_neg h]

theorem stEx_openSet : stEx.openSet = [1, 2] ∧
    stEx.fScore 1 = ((10 : ℝ) : WithTop ℝ) ∧
    stEx.fScore 2 = ((10 : ℝ) : WithTop ℝ) := by
  have hst : stEx = relaxEdge gEx 5 0
      (relaxEdge gEx 5 0 { initState gEx 0 5 with openSet := [] } 1) 2 := rfl
  set st0 : AState ℕ := { initState gEx 0 5 with openSet := [] } with hst0
  have hg0 : st0.gScore 0 = ((0 : ℝ) : WithTop ℝ) := rfl
  have hg1 : st0.gScore 1 = ⊤ := rfl
  have hg2 : st0.gScore 2 = ⊤ := rfl
  have h1 : st0.gScore 0 + ((edgeW gEx 0 1 : ℝ) : WithTop ℝ) < st0.gScore 1 := by
    rw [hg0, hg1, gEx_edge01, ← WithTop.coe_add]
    exact WithTop.coe_lt_top _
  have e1 := @relaxEdge_pos ℕ _ gEx 5 0 st0 1 h1
  set st1 : AState ℕ := relaxEdge gEx 5 0 st0 1 with hst1
  have hso1 : st1.openSet = [1] := by
    rw [e1]
    simp
  have hg1' : st1.gScore 0 = ((0 : ℝ) : WithTop ℝ) := by
    rw [e1]
    show Function.update st0.gScore 1
      (st0.gScore 0 + ((edgeW gEx 0 1 : ℝ) : WithTop ℝ)) 0 = ((0 : ℝ) : WithTop ℝ)
    rw [Function.update_noteq (by norm_num : (0:ℕ) ≠ 1)]
    exact hg0
  have hg1'' : st1.gScore 2 = ⊤ := by
    rw [e1]
    show Function.update st0.gScore 1
      (st0.gScore 0 + ((edgeW gEx 0 1 : ℝ) : WithTop ℝ)) 2 = ⊤
    rw [Function.update_noteq (by norm_num : (2:ℕ) ≠ 1)]
    exact hg2
  have hf1 : st1.fScore 1 = ((10 : ℝ) : WithTop ℝ) := by
    rw [e1]
    show Function.update st0.fScore 1
      (st0.gScore 0 + ((edgeW gEx 0 1 : ℝ) : WithTop ℝ) +
        ((hEuc gEx 5 1 : ℝ) : WithTop ℝ)) 1 = ((10 : ℝ) : WithTop ℝ)
    rw [Function.update_same, hg0, gEx_edge01, gEx_h1]
    push_cast
    norm_num
  have h2 : st1.gScore 0 + ((edgeW gEx 0 2 : ℝ) : WithTop ℝ) < st1.gScore 2 := by
    rw [hg1', hg1'', gEx_edge02, ← WithTop.coe_add]
    exact WithTop.coe_lt_top _
  have e2 := @relaxEdge_pos ℕ _ gEx 5 0 st1 2 h2
  rw [hst, e2]
  refine ⟨?_, ?_, ?_⟩
  · show (if (2:ℕ) ∈ st1.openSet then st1.openSet else st1.openSet ++ [2]) =
      [1, 2]
    rw [hso1]
    simp
  · show Function.update st1.fScore 2
      (st1.gScore 0 + ((edgeW gEx 0 2 : ℝ) : WithTop ℝ) +
        ((hEuc gEx 5 2 : ℝ) : WithTop ℝ)) 1 = ((10 : ℝ) : WithTop ℝ)
    rw [Function.update_noteq (by norm_num : (1:ℕ) ≠ 2)]
    exact hf1
  · show Function.update st1.fScore 2
      (st1.gScore 0 + ((edgeW gEx 0 2 : ℝ) : WithTop ℝ) +
        ((hEuc gEx 5 2 : ℝ) : WithTop ℝ)) 2 = ((10 : ℝ) : WithTop ℝ)
    rw [Function.update_same, hg1', gEx_edge02, gEx_h2]
    push_cast
    norm_num

/-- C9: FALSE as stated. The extraction `reduce((a,b) => f[a] < f[b] ? a : b)`
keeps `b` on ties, hence returns the LAST minimal-f node, not the first.
On the concrete graph `gEx` the loop reaches state `stEx` with open set
`[1, 2]` and equal f-scores; the code extracts node 2 while the spec's
first-minimal rule picks node 1. -/
theorem C9_tiebreak_claim_false :
    ¬ C9_claim ∧
    stEx.openSet = [1, 2] ∧ stEx.fScore 1 = stEx.fScore 2 ∧
    reduceMinF stEx.fScore 1 [2] = 2 ∧ firstMinF stEx.fScore 1 [2] = 1 ∧
    ∀ fuel, astarLoop gEx 5 (fuel + 1) (initState gEx 0 5) =
      astarLoop gEx 5 fuel stEx := by
  obtain ⟨hopen, hf1, hf2⟩ := stEx_openSet
  have heq : stEx.fScore 1 = stEx.fScore 2 := by rw [hf1, hf2]
  have hred : reduceMinF stEx.fScore 1 [2] = 2 := by
    show (if stEx.fScore 1 < stEx.fScore 2 then (1:ℕ) else 2) = 2
    rw [if_neg (by rw [heq]; exact lt_irrefl _)]
  have hfirst : firstMinF stEx.fScore 1 [2] = 1 := by
    have hm : listMinF stEx.fScore 1 [2] = stEx.fScore 1 := by
      show min (stEx.fScore 1) (stEx.fScore 2) = stEx.fScore 1
      rw [heq, min_self]
    show firstWith stEx.fScore (listMinF stEx.fScore 1 [2]) [1, 2] 1 = 1
    rw [firstWith, if_pos hm.symm]
  refine ⟨?_, hopen, heq, hred, hfirst, fun fuel => rfl⟩
  intro hc
  have := hc stEx.fScore 1 [2]
  rw [hred, hfirst] at this
  exact absurd this (by norm_num)

/-- C9: amended tie-break policy. The node extracted for expansion is a
minimal-f node of the open set, and it is the LAST minimal-f node in the
open set's iteration order: every node strictly after it in the list has
strictly larger f-score. -/
theorem C9_tiebreak_amended (f : V → WithTop ℝ) (x : V) (xs : List V) :
    reduceMinF f x xs ∈ x :: xs ∧
    (∀ z ∈ x :: xs, f (reduceMinF f x xs) ≤ f z) ∧
    ∃ l₁ l₂, x :: xs = l₁ ++ reduceMinF f x xs :: l₂ ∧
      ∀ z ∈ l₂, f (reduceMinF f x xs) < f z :=
  reduceMinF_spec f xs x

/-! ### Consistency of the Euclidean heuristic -/

theorem hypot_eq_abs (a b : ℝ) : hypot a b = Complex.abs ⟨a, b⟩ := by
  rw [hypot, Complex.abs_apply, Complex.normSq_mk]
  ring_nf

theorem hypot_triangle (x1 y1 x2 y2 x3 y3 : ℝ) :
    hypot (x1 - x3) (y1 - y3) ≤
      hypot (x1 - x2) (y1 - y2) + hypot (x2 - x3) (y2 - y3) := by
  rw [hypot_eq_abs, hypot_eq_abs, hypot_eq_abs]
  have h : (⟨x1 - x3, y1 - y3⟩ : ℂ) = ⟨x1 - x2, y1 - y2⟩ + ⟨x2 - x3, y2 - y3⟩ := by
    apply Complex.ext
    · show x1 - x3 = (x1 - x2) + (x2 - x3)
      ring
    · show y1 - y3 = (y1 - y2) + (y2 - y3)
      ring
  rw [h]
  exact Complex.abs.add_le _ _

theorem hEuc_consistent (g : AGraph V) (endId a b : V) :
    hEuc g endId a ≤ edgeW g a b + hEuc g endId b :=
  hypot_triangle (nd g a).x (nd g a).y (nd g b).x (nd g b).y
    (nd g endId).x (nd g endId).y

theorem hEuc_along_list (g : AGraph V) (endId : V) :
    ∀ (l : List V) (y c : V), l.head? = some y → l.getLast? = some c →
      hEuc g endId y ≤ routeCost g l + hEuc g endId c := by
  intro l
  induction l with
  | nil => intro y c h; cases h
  | cons a t ih =>
    intro y c hh hl
    have hay : a = y := Option.some_injective _ hh
    subst hay
    cases t with
    | nil =>
      have hac : a = c := Option.some_injective _ hl
      subst hac
      show hEuc g endId a ≤ 0 + hEuc g endId a
      rw [zero_add]
    | cons b t' =>
      have hl' : (b :: t').getLast? = some c := by
        rwa [List.getLast?_cons_cons] at hl
      have h1 := hEuc_consistent g endId a b
      have h2 := ih b c rfl hl'
      show hEuc g endId a ≤ (edgeW g a b + routeCost g (b :: t')) + hEuc g endId c
      linarith

/-! ### List helpers for the A* invariant -/

theorem mem_of_getLast?_eq : ∀ {l : List V} {a : V}, l.getLast? = some a → a ∈ l := by
  intro l
  induction l with
  | nil => intro a h; cases h
  | cons x t ih =>
    intro a h
    cases t with
    | nil =>
      have : x = a := Option.some_injective _ h
      rw [this]
      exact List.mem_cons_self _ _
    | cons y t' =>
      rw [List.getLast?_cons_cons] at h
      exact List.mem_cons_of_mem _ (ih h)

theorem head?_append_left {l l' : List V} {a : V} (h : l.head? = some a) :
    (l ++ l').head? = some a := by
  cases l with
  | nil => cases h
  | cons b t => exact h

theorem exists_first_notin (D : Finset V) :
    ∀ (p : List V), (∃ v ∈ p, v ∉ D) →
      ∃ p₁ y p₂, p = p₁ ++ y :: p₂ ∧ (∀ z ∈ p₁, z ∈ D) ∧ y ∉ D := by
  intro p
  induction p with
  | nil =>
    rintro ⟨v, hv, _⟩
    cases hv
  | cons a t ih =>
    intro h
    by_cases ha : a ∈ D
    · have h' : ∃ v ∈ t, v ∉ D := by
        obtain ⟨v, hv, hvD⟩ := h
        rcases List.mem_cons.mp hv with rfl | hv'
        · exact absurd ha hvD
        · exact ⟨v, hv', hvD⟩
      obtain ⟨p₁, y, p₂, heq, h1, h2⟩ := ih h'
      refine ⟨a :: p₁, y, p₂, by rw [heq, List.cons_append], ?_, h2⟩
      intro z hz
      rcases List.mem_cons.mp hz with rfl | hz'
      · exact ha
      · exact h1 z hz'
    · exact ⟨[], a, t, rfl, by simp, ha⟩

theorem isRoute_prefix_concat {g : AGraph V} {q : List V} {u s b : V} {rest : List V}
    (h : IsRoute g ((q ++ [u]) ++ rest) s b) : IsRoute g (q ++ [u]) s u := by
  obtain ⟨hne, hh, hl, hmem, hch⟩ := h
  refine ⟨by simp, ?_, List.getLast?_concat q, ?_, (List.chain'_append.mp hch).1⟩
  · cases hq : q with
    | nil =>
      rw [hq] at hh
      exact hh
    | cons a t =>
      rw [hq] at hh
      exact hh
  · intro v hv
    exact hmem v (List.mem_append.mpr (Or.inl hv))

/-! ### The parent-chain structure used by path reconstruction -/

inductive CFChain (cf : V → Option V) (startId : V) : V → ℕ → Prop
  | base : cf startId = none → CFChain cf startId startId 0
  | step (v u : V) (n : ℕ) : cf v = some u → CFChain cf startId u n →
      CFChain cf startId v (n + 1)

theorem CFChain_update {cf : V → Option V} {startId v : V} {n : ℕ}
    (D : Finset V) (hcf : ∀ w u, cf w = some u → u ∈ D)
    (h : CFChain cf startId v n) (x : V) (o : Option V)
    (hxD : x ∉ D) (hxv : x ≠ v) (hxs : x ≠ startId) :
    CFChain (Function.update cf x o) startId v n := by
  induction h with
  | base h0 =>
    exact CFChain.base (by rw [Function.update_noteq (Ne.symm hxs)]; exact h0)
  | step w u m hw hu ih =>
    refine CFChain.step w u m ?_ (ih (fun h => hxD (h ▸ hcf w u hw)))
    rw [Function.update_noteq (Ne.symm hxv)]
    exact hw

/-- A closed graph: every neighbor id mentioned by a node is itself a node.
(The JS code crashes on `nodes[nextId].x` otherwise.) -/
def ClosedGraph (g : AGraph V) : Prop :=
  ∀ i ∈ keys g, ∀ j ∈ (nd g i).neighbors, j ∈ keys g

/-- The A* loop invariant, relative to the ghost set `done` of already
expanded nodes.  `R` restricts which done-node edges are known to be
relaxed (mid-fold the current node's edges are only partially relaxed). -/
structure AInvG (g : AGraph V) (startId endId : V) (done : Finset V)
    (R : V → V → Prop) (st : AState V) : Prop where
  open_sub : ∀ v ∈ st.openSet, v ∈ keys g
  open_nodup : st.openSet.Nodup
  done_sub : ∀ v ∈ done, v ∈ keys g
  disj : ∀ v ∈ done, v ∉ st.openSet
  g_ge : ∀ v, delta g startId v ≤ st.gScore v
  cf : ∀ v u, st.cameFrom v = some u → u ∈ done ∧ v ∈ (nd g u).neighbors ∧
    st.gScore v = st.gScore u + ((edgeW g u v : ℝ) : WithTop ℝ)
  done_opt : ∀ v ∈ done, st.gScore v = delta g startId v
  rel : ∀ u ∈ done, ∀ v ∈ (nd g u).neighbors, R u v →
    st.gScore v ≤ st.gScore u + ((edgeW g u v : ℝ) : WithTop ℝ)
  start_mem : startId ∈ done ∨ startId ∈ st.openSet
  gfin : ∀ v, st.gScore v ≠ ⊤ → v ∈ done ∨ v ∈ st.openSet
  fdef : ∀ v, st.fScore v = st.gScore v + ((hEuc g endId v : ℝ) : WithTop ℝ)
  open_fin : ∀ v ∈ st.openSet, st.gScore v ≠ ⊤
  g_start : st.gScore startId = ((0 : ℝ) : WithTop ℝ)
  cf_start : st.cameFrom startId = none
  chain : ∀ v, st.gScore v ≠ ⊤ → ∃ n, CFChain st.cameFrom startId v n ∧
    n ≤ done.card + 1 ∧ (v ∈ done → n ≤ done.card)
  done_fin : ∀ v ∈ done, delta g startId v ≠ ⊤
  end_done : endId ∉ done

theorem AInvG.mono {g : AGraph V} {startId endId : V} {done : Finset V}
    {R R' : V → V → Prop} {st : AState V}
    (inv : AInvG g startId endId done R st)
    (h : ∀ u ∈ done, ∀ v ∈ (nd g u).neighbors, R' u v → R u v) :
    AInvG g startId endId done R' st :=
  { inv with rel := fun u hu v hv hr => inv.rel u hu v hv (h u hu v hv hr) }

/-- From any node `v` that is reachable but not yet expanded, the open set
contains a node `y` on a shortest route to `v` whose g-score is bounded by
the cost of the route's prefix up to `y`. -/
theorem frontier_node {g : AGraph V} {startId endId : V} {done : Finset V}
    {R : V → V → Prop} {st : AState V} (hs : startId ∈ keys g)
    (hrel : ∀ u ∈ done, ∀ v ∈ (nd g u).neighbors,
      st.gScore v ≤ st.gScore u + ((edgeW g u v : ℝ) : WithTop ℝ))
    (inv : AInvG g startId endId done R st)
    {v : V} (hv : delta g startId v ≠ ⊤) (hvd : v ∉ done) :
    ∃ y ∈ st.openSet, ∃ c₁ c₂ : ℝ,
      st.gScore y ≤ ((c₁ : ℝ) : WithTop ℝ) ∧
      hEuc g endId y ≤ c₂ + hEuc g endId v ∧
      ((c₁ + c₂ : ℝ) : WithTop ℝ) = delta g startId v := by
  obtain ⟨p, hp, hnd, hcost⟩ := delta_attained hv
  have hvp : v ∈ p := mem_of_getLast?_eq hp.2.2.1
  obtain ⟨p₁, y, p₂, hdec, hp₁, hy⟩ := exists_first_notin done p ⟨v, hvp, hvd⟩
  have hplast : (y :: p₂).getLast? = some v := by
    have := hp.2.2.1
    rw [hdec, List.getLast?_append_of_ne_nil _ (by simp)] at this
    exact this
  have hc₂ : hEuc g endId y ≤ routeCost g (y :: p₂) + hEuc g endId v :=
    hEuc_along_list g endId (y :: p₂) y v rfl hplast
  have hsplit : routeCost g p = routeCost g (p₁ ++ [y]) + routeCost g (y :: p₂) := by
    rw [hdec, routeCost_append]
  cases hp₁e : p₁ with
  | nil =>
    have hheady : p.head? = some y := by rw [hdec, hp₁e, List.nil_append]; rfl
    have hys : y = startId := by
      have := hp.2.1
      rw [hheady] at this
      exact Option.some_injective _ this
    have hyopen : y ∈ st.openSet := by
      rcases inv.start_mem with h | h
      · exact absurd (hys ▸ h) hy
      · exact hys ▸ h
    refine ⟨y, hyopen, 0, routeCost g (y :: p₂), ?_, hc₂, ?_⟩
    · rw [hys, inv.g_start]
    · rw [hcost]
      norm_cast
      rw [hsplit, hp₁e, List.nil_append, show routeCost g [y] = 0 from rfl]
  | cons a t =>
    obtain ⟨q, u, hqu⟩ : ∃ q u, p₁ = q ++ [u] := by
      rcases List.eq_nil_or_concat' p₁ with h | ⟨L, b, h⟩
      · rw [hp₁e] at h
        cases h
      · exact ⟨L, b, h⟩
    have hu_done : u ∈ done := hp₁ u (by rw [hqu]; simp)
    have hy_nb : y ∈ (nd g u).neighbors := by
      have hch := hp.2.2.2.2
      rw [hdec, hqu] at hch
      have := (List.chain'_append.mp hch).2.2
      exact this u (List.getLast?_concat q) y rfl
    have hpref : IsRoute g (q ++ [u]) startId u := by
      refine @isRoute_prefix_concat V _ g q u startId v (y :: p₂) ?_
      rw [← hqu, ← hdec]
      exact hp
    have hδu : delta g startId u ≤ ((routeCost g (q ++ [u]) : ℝ) : WithTop ℝ) :=
      delta_le_cost hpref
    have hgu : st.gScore u = delta g startId u := inv.done_opt u hu_done
    have hgy : st.gScore y ≤
        ((routeCost g (q ++ [u]) + edgeW g u y : ℝ) : WithTop ℝ) := by
      have h1 := hrel u hu_done y hy_nb
      rw [hgu] at h1
      calc st.gScore y ≤ delta g startId u + ((edgeW g u y : ℝ) : WithTop ℝ) := h1
      _ ≤ ((routeCost g (q ++ [u]) : ℝ) : WithTop ℝ) +
          ((edgeW g u y : ℝ) : WithTop ℝ) := add_le_add_right hδu _
      _ = _ := by rw [← WithTop.coe_add]
    have hyopen : y ∈ st.openSet := by
      have hfin : st.gScore y ≠ ⊤ :=
        ne_top_of_le_ne_top (WithTop.coe_ne_top) hgy
      rcases inv.gfin y hfin with h | h
      · exact absurd h hy
      · exact h
    refine ⟨y, hyopen, routeCost g (q ++ [u]) + edgeW g u y,
      routeCost g (y :: p₂), hgy, hc₂, ?_⟩
    rw [hcost]
    norm_cast
    rw [hsplit, hqu, routeCost_concat g (q ++ [u]) u y (List.getLast?_concat q)]

/-- When the loop extracts the minimum-f node from a nonempty open set,
its g-score equals the true shortest distance from the start. -/
theorem extract_min_opt {g : AGraph V} {startId endId : V} {done : Finset V}
    {st : AState V} (hs : startId ∈ keys g)
    (inv : AInvG g startId endId done (fun _ _ => True) st)
    (x : V) (xs : List V) (hopen : st.openSet = x :: xs) :
    st.gScore (reduceMinF st.fScore x xs) =
      delta g startId (reduceMinF st.fScore x xs) := by
  set cur := reduceMinF st.fScore x xs with hcurdef
  have hcur_mem : cur ∈ st.openSet := by
    rw [hopen]
    exact (reduceMinF_spec st.fScore xs x).1
  have hcur_fin : st.gScore cur ≠ ⊤ := inv.open_fin cur hcur_mem
  have hδfin : delta g startId cur ≠ ⊤ := by
    intro h
    exact hcur_fin (top_le_iff.mp (h ▸ inv.g_ge cur))
  have hcur_nd : cur ∉ done := fun h => inv.disj cur h hcur_mem
  obtain ⟨y, hy_open, c₁, c₂, hgle, hhle, hsum⟩ :=
    frontier_node hs (fun u hu v hv => inv.rel u hu v hv trivial) inv hδfin hcur_nd
  have hymin : st.fScore cur ≤ st.fScore y := by
    have := (reduceMinF_spec st.fScore xs x).2.1 y (by rw [← hopen]; exact hy_open)
    exact this
  have hfy : st.fScore y ≤
      (((c₁ + c₂ + hEuc g endId cur : ℝ)) : WithTop ℝ) := by
    rw [inv.fdef y]
    calc st.gScore y + ((hEuc g endId y : ℝ) : WithTop ℝ) ≤
        ((c₁ : ℝ) : WithTop ℝ) + ((hEuc g endId y : ℝ) : WithTop ℝ) :=
          add_le_add_right hgle _
    _ ≤ ((c₁ : ℝ) : WithTop ℝ) + ((c₂ + hEuc g endId cur : ℝ) : WithTop ℝ) := by
          apply add_le_add_left
          exact_mod_cast hhle
    _ = _ := by
          rw [← WithTop.coe_add]
          norm_num [add_assoc]
  have hmain : st.fScore cur ≤
      delta g startId cur + ((hEuc g endId cur : ℝ) : WithTop ℝ) := by
    calc st.fScore cur ≤ st.fScore y := hymin
    _ ≤ ((c₁ + c₂ + hEuc g endId cur : ℝ) : WithTop ℝ) := hfy
    _ = ((c₁ + c₂ : ℝ) : WithTop ℝ) + ((hEuc g endId cur : ℝ) : WithTop ℝ) := by
          rw [← WithTop.coe_add]
    _ = delta g startId cur + ((hEuc g endId cur : ℝ) : WithTop ℝ) := by
          rw [hsum]
  rw [inv.fdef cur] at hmain
  have hle := (WithTop.add_le_add_iff_right
    (WithTop.coe_ne_top :
      ((hEuc g endId cur : ℝ) : WithTop ℝ) ≠ ⊤)).mp hmain
  exact le_antisymm hle (inv.g_ge cur)

/-- Following the `cameFrom` chain reconstructs a route from the start whose
cost is exactly the node's g-score. -/
theorem reconstruct_route {g : AGraph V} {startId endId : V} {done : Finset V}
    {R : V → V → Prop} {st : AState V}
    (inv : AInvG g startId endId done R st)
    (hs : startId ∈ keys g) (hclosed : ClosedGraph g) :
    ∀ (n : ℕ) (v : V), CFChain st.cameFrom startId v n → st.gScore v ≠ ⊤ →
      ∀ fuel, n ≤ fuel → ∀ acc, ∃ q,
        reconstruct st.cameFrom fuel v (v :: acc) = q ++ acc ∧
        IsRoute g q startId v ∧
        ((routeCost g q : ℝ) : WithTop ℝ) = st.gScore v := by
  intro n v hchain
  induction hchain with
  | base h0 =>
    intro hfin fuel hfuel acc
    refine ⟨[startId], ?_, isRoute_singleton hs, ?_⟩
    · cases fuel with
      | zero => rfl
      | succ m =>
        show (match st.cameFrom startId with
          | none => startId :: acc
          | some c => reconstruct st.cameFrom m c (c :: (startId :: acc))) = _
        rw [h0]
        rfl
    · rw [show routeCost g [startId] = 0 from rfl, inv.g_start]
  | step w u m hw hu ih =>
    intro hfin fuel hfuel acc
    obtain ⟨hu_done, hw_nb, hg_eq⟩ := inv.cf w u hw
    have hufin : st.gScore u ≠ ⊤ := by
      intro h
      rw [hg_eq, h, top_add] at hfin
      exact hfin rfl
    cases fuel with
    | zero => omega
    | succ fuel' =>
      have hstep : reconstruct st.cameFrom (fuel' + 1) w (w :: acc) =
          reconstruct st.cameFrom fuel' u (u :: (w :: acc)) := by
        show (match st.cameFrom w with
          | none => w :: acc
          | some c => reconstruct st.cameFrom fuel' c (c :: (w :: acc))) = _
        rw [hw]
      obtain ⟨qu, hqu_eq, hqu_route, hqu_cost⟩ :=
        ih hufin fuel' (by omega) (w :: acc)
      refine ⟨qu ++ [w], ?_, ?_, ?_⟩
      · rw [hstep, hqu_eq, List.append_assoc]
        rfl
      · refine isRoute_concat hqu_route hw_nb ?_
        exact hclosed u (inv.done_sub u hu_done) w hw_nb
      · rw [routeCost_concat g qu u w hqu_route.2.2.1]
        rw [hg_eq, ← hqu_cost, ← WithTop.coe_add]

/-- Relaxing one edge out of the current node preserves the invariant and
extends the set of relaxed targets by that edge. -/
theorem relaxEdge_preserves {g : AGraph V} {startId endId : V}
    (hclosed : ClosedGraph g) {done : Finset V} {current : V} {P : V → Prop}
    {st : AState V} (hcur : current ∈ done)
    (inv : AInvG g startId endId done (fun u v => u ≠ current ∨ P v) st)
    {nextId : V} (hnb : nextId ∈ (nd g current).neighbors) :
    AInvG g startId endId done (fun u v => u ≠ current ∨ (P v ∨ v = nextId))
      (relaxEdge g endId current st nextId) := by
  by_cases hlt : st.gScore current + ((edgeW g current nextId : ℝ) : WithTop ℝ) <
      st.gScore nextId
  case neg =>
    rw [relaxEdge_neg hlt]
    refine { inv with rel := ?_ }
    intro u hu v hv hr
    rcases hr with hne | hPv | hveq
    · exact inv.rel u hu v hv (Or.inl hne)
    · exact inv.rel u hu v hv (Or.inr hPv)
    · subst hveq
      by_cases huc : u = current
      · subst huc
        exact not_lt.mp hlt
      · exact inv.rel u hu v hv (Or.inl huc)
  case pos =>
    set st2 := relaxEdge g endId current st nextId with hst2
    set tg := st.gScore current + ((edgeW g current nextId : ℝ) : WithTop ℝ)
      with htg
    have hOS : st2.openSet = if nextId ∈ st.openSet then st.openSet else
        st.openSet ++ [nextId] := by
      rw [hst2, relaxEdge_pos hlt]
    have hCF : st2.cameFrom = Function.update st.cameFrom nextId (some current) := by
      rw [hst2, relaxEdge_pos hlt]
    have hG : st2.gScore = Function.update st.gScore nextId tg := by
      rw [hst2, relaxEdge_pos hlt]
    have hF : st2.fScore = Function.update st.fScore nextId
        (tg + ((hEuc g endId nextId : ℝ) : WithTop ℝ)) := by
      rw [hst2, relaxEdge_pos hlt]
    have hnext_keys : nextId ∈ keys g :=
      hclosed current (inv.done_sub current hcur) nextId hnb
    have hgcur_opt : st.gScore current = delta g startId current :=
      inv.done_opt current hcur
    have hδnext : delta g startId nextId ≤ tg := by
      rw [htg, hgcur_opt]
      exact delta_triangle hnb hnext_keys
    have hnd' : nextId ∉ done := by
      intro hmem
      rw [inv.done_opt _ hmem] at hlt
      exact absurd hlt (not_lt.mpr hδnext)
    have hne_cur : nextId ≠ current := fun h => hnd' (h ▸ hcur)
    have hne_start : nextId ≠ startId := by
      intro h
      have h1 : (0 : WithTop ℝ) ≤ st.gScore current :=
        le_trans (delta_nonneg g startId current) (inv.g_ge current)
      have h2 : (0 : WithTop ℝ) ≤ ((edgeW g current nextId : ℝ) : WithTop ℝ) := by
        exact_mod_cast edgeW_nonneg g current nextId
      have h3 : (0 : WithTop ℝ) ≤ tg := add_nonneg h1 h2
      rw [h, inv.g_start, WithTop.coe_zero] at hlt
      exact absurd hlt (not_lt.mpr h3)
    have htg_fin : tg ≠ ⊤ := by
      rw [htg]
      refine WithTop.add_ne_top.mpr ⟨?_, WithTop.coe_ne_top⟩
      rw [hgcur_opt]
      exact inv.done_fin current hcur
    have hD : ∀ w u, st.cameFrom w = some u → u ∈ done :=
      fun w u h => (inv.cf w u h).1
    have hg_next : st2.gScore nextId = tg := by
      rw [hG, Function.update_same]
    have hg_other : ∀ v, v ≠ nextId → st2.gScore v = st.gScore v := by
      intro v hv
      rw [hG, Function.update_noteq hv]
    have hg_done : ∀ u ∈ done, st2.gScore u = st.gScore u :=
      fun u hu => hg_other u (fun h => hnd' (h ▸ hu))
    have hopen_sub2 : ∀ w ∈ st.openSet, w ∈ st2.openSet := by
      intro w hw
      rw [hOS]
      by_cases hmem : nextId ∈ st.openSet
      · rw [if_pos hmem]
        exact hw
      · rw [if_neg hmem]
        exact List.mem_append_left _ hw
    refine { open_sub := ?os
             open_nodup := ?nodup
             done_sub := inv.done_sub
             disj := ?dj
             g_ge := ?gge
             cf := ?cf
             done_opt := ?dopt
             rel := ?rel
             start_mem := ?sm
             gfin := ?gfin
             fdef := ?fdef
             open_fin := ?ofin
             g_start := ?gst
             cf_start := ?cfst
             chain := ?chn
             done_fin := inv.done_fin
             end_done := inv.end_done }
    case os =>
      intro v hv
      rw [hOS] at hv
      by_cases hmem : nextId ∈ st.openSet
      · rw [if_pos hmem] at hv
        exact inv.open_sub v hv
      · rw [if_neg hmem] at hv
        rcases List.mem_append.mp hv with h | h
        · exact inv.open_sub v h
        · rw [List.mem_singleton.mp h]
          exact hnext_keys
    case nodup =>
      rw [hOS]
      by_cases hmem : nextId ∈ st.openSet
      · rw [if_pos hmem]
        exact inv.open_nodup
      · rw [if_neg hmem]
        simp [List.nodup_append, inv.open_nodup, hmem]
    case dj =>
      intro v hv
      rw [hOS]
      by_cases hmem : nextId ∈ st.openSet
      · rw [if_pos hmem]
        exact inv.disj v hv
      · rw [if_neg hmem]
        intro hcon
        rcases List.mem_append.mp hcon with h | h
        · exact inv.disj v hv h
        · exact hnd' (List.mem_singleton.mp h ▸ hv)
    case gge =>
      intro v
      by_cases hv : v = nextId
      · subst hv
        rw [hg_next]
        exact hδnext
      · rw [hg_other v hv]
        exact inv.g_ge v
    case cf =>
      intro v u hcf
      by_cases hv : v = nextId
      · subst hv
        rw [hCF, Function.update_same] at hcf
        have hcu : current = u := Option.some_injective _ hcf
        subst hcu
        refine ⟨hcur, hnb, ?_⟩
        rw [hg_next, hg_other current (Ne.symm hne_cur)]
      · rw [hCF, Function.update_noteq hv] at hcf
        obtain ⟨h1, h2, h3⟩ := inv.cf v u hcf
        have hu_ne : u ≠ nextId := fun h => hnd' (h ▸ h1)
        refine ⟨h1, h2, ?_⟩
        rw [hg_other v hv, hg_other u hu_ne]
        exact h3
    case dopt =>
      intro v hv
      rw [hg_done v hv]
      exact inv.done_opt v hv
    case rel =>
      intro u hu v hv hr
      have hgu : st2.gScore u = st.gScore u := hg_done u hu
      by_cases hveq : v = nextId
      · subst hveq
        by_cases huc : u = current
        · subst huc
          rw [hg_next, hgu]
        · have hold := inv.rel u hu v hv (Or.inl huc)
          rw [hg_next, hgu]
          exact le_trans (le_of_lt hlt) hold
      · rw [hg_other v hveq, hgu]
        rcases hr with hne | hPv | hve
        · exact inv.rel u hu v hv (Or.inl hne)
        · exact inv.rel u hu v hv (Or.inr hPv)
        · exact absurd hve hveq
    case sm =>
      rcases inv.start_mem with h | h
      · exact Or.inl h
      · exact Or.inr (hopen_sub2 startId h)
    case gfin =>
      intro v hfin
      by_cases hv : v = nextId
      · rw [hv]
        refine Or.inr ?_
        rw [hOS]
        by_cases hmem : nextId ∈ st.openSet
        · rw [if_pos hmem]
          exact hmem
        · rw [if_neg hmem]
          exact List.mem_append_right _ (List.mem_singleton.mpr rfl)
      · rw [hg_other v hv] at hfin
        rcases inv.gfin v hfin with h | h
        · exact Or.inl h
        · exact Or.inr (hopen_sub2 v h)
    case fdef =>
      intro v
      by_cases hv : v = nextId
      · subst hv
        rw [hF, Function.update_same, hg_next]
      · rw [hF, Function.update_noteq hv, hg_other v hv]
        exact inv.fdef v
    case ofin =>
      intro v hv
      by_cases hveq : v = nextId
      · subst hveq
        rw [hg_next]
        exact htg_fin
      · rw [hg_other v hveq]
        apply inv.open_fin
        rw [hOS] at hv
        by_cases hmem : nextId ∈ st.openSet
        · rwa [if_pos hmem] at hv
        · rw [if_neg hmem] at hv
          rcases List.mem_append.mp hv with h | h
          · exact h
          · exact absurd (List.mem_singleton.mp h) hveq
    case gst =>
      rw [hg_other startId (Ne.symm hne_start)]
      exact inv.g_start
    case cfst =>
      rw [hCF, Function.update_noteq (Ne.symm hne_start)]
      exact inv.cf_start
    case chn =>
      intro v hfin
      by_cases hv : v = nextId
      · rw [hv]
        have hcfin : st.gScore current ≠ ⊤ := by
          rw [hgcur_opt]
          exact inv.done_fin current hcur
        obtain ⟨n, hch, hb1, hb2⟩ := inv.chain current hcfin
        have hn : n ≤ done.card := hb2 hcur
        refine ⟨n + 1, ?_, by omega, fun h => absurd h hnd'⟩
        refine CFChain.step nextId current n ?_ ?_
        · rw [hCF, Function.update_same]
        · rw [hCF]
          exact CFChain_update done hD hch nextId (some current) hnd' hne_cur
            hne_start
      · rw [hg_other v hv] at hfin
        obtain ⟨n, hch, hb1, hb2⟩ := inv.chain v hfin
        refine ⟨n, ?_, hb1, hb2⟩
        rw [hCF]
        exact CFChain_update done hD hch nextId (some current) hnd' (Ne.symm hv)
          hne_start

/-- Folding `relaxEdge` over a sublist of the current node's neighbors
preserves the invariant, extending the relaxed set by that sublist. -/
theorem relaxAll_preserves {g : AGraph V} {startId endId : V}
    (hclosed : ClosedGraph g) {done : Finset V} {current : V}
    (hcur : current ∈ done) :
    ∀ (l : List V) (P : V → Prop) (st : AState V),
      (∀ v ∈ l, v ∈ (nd g current).neighbors) →
      AInvG g startId endId done (fun u v => u ≠ current ∨ P v) st →
      AInvG g startId endId done (fun u v => u ≠ current ∨ (P v ∨ v ∈ l))
        (l.foldl (relaxEdge g endId current) st) := by
  intro l
  induction l with
  | nil =>
    intro P st hnb inv
    refine inv.mono ?_
    intro u hu v hv hr
    rcases hr with h | h | h
    · exact Or.inl h
    · exact Or.inr h
    · cases h
  | cons a t ih =>
    intro P st hnb inv
    have h1 := relaxEdge_preserves hclosed hcur inv (hnb a (List.mem_cons_self _ _))
    have h2 := ih (fun v => P v ∨ v = a) (relaxEdge g endId current st a)
      (fun v hv => hnb v (List.mem_cons_of_mem _ hv)) h1
    refine h2.mono ?_
    intro u hu v hv hr
    rcases hr with h | h | h
    · exact Or.inl h
    · exact Or.inr (Or.inl (Or.inl h))
    · rcases List.mem_cons.mp h with rfl | h'
      · exact Or.inr (Or.inl (Or.inr rfl))
      · exact Or.inr (Or.inr h')

/-- Moving the extracted node from the open set into `done` preserves the
invariant (with no relaxed edges yet for the new done node). -/
theorem extract_inv {g : AGraph V} {startId endId : V} {done : Finset V}
    {st : AState V} (hs : startId ∈ keys g)
    (inv : AInvG g startId endId done (fun _ _ => True) st)
    (x : V) (xs : List V) (hopen : st.openSet = x :: xs)
    (hne : reduceMinF st.fScore x xs ≠ endId) :
    AInvG g startId endId (insert (reduceMinF st.fScore x xs) done)
      (fun u v => u ≠ reduceMinF st.fScore x xs ∨ False)
      { st with openSet := st.openSet.erase (reduceMinF st.fScore x xs) } := by
  set cur := reduceMinF st.fScore x xs with hcurdef
  have hext : st.gScore cur = delta g startId cur := extract_min_opt hs inv x xs hopen
  have hcur_mem : cur ∈ st.openSet := by
    rw [hopen]
    exact (reduceMinF_spec st.fScore xs x).1
  have hcur_nd : cur ∉ done := fun h => inv.disj cur h hcur_mem
  have hcard : (insert cur done).card = done.card + 1 :=
    Finset.card_insert_of_not_mem hcur_nd
  refine { open_sub := ?os2
           open_nodup := inv.open_nodup.erase cur
           disj := ?dj2
           done_sub := ?ds2
           g_ge := inv.g_ge
           cf := ?cf2
           done_opt := ?dopt2
           rel := ?rel2
           start_mem := ?sm2
           gfin := ?gfin2
           fdef := inv.fdef
           open_fin := ?ofin2
           g_start := inv.g_start
           cf_start := inv.cf_start
           chain := ?chn2
           done_fin := ?dfin2
           end_done := ?ed2 }
  case os2 =>
    intro v hv
    exact inv.open_sub v (List.mem_of_mem_erase hv)
  case dj2 =>
    intro v hv hcon
    rcases Finset.mem_insert.mp hv with rfl | h
    · exact (inv.open_nodup.mem_erase_iff.mp hcon).1 rfl
    · exact inv.disj v h (List.mem_of_mem_erase hcon)
  case ds2 =>
    intro v hv
    rcases Finset.mem_insert.mp hv with rfl | h
    · exact inv.open_sub cur hcur_mem
    · exact inv.done_sub v h
  case cf2 =>
    intro v u h
    obtain ⟨h1, h2, h3⟩ := inv.cf v u h
    exact ⟨Finset.mem_insert_of_mem h1, h2, h3⟩
  case dopt2 =>
    intro v hv
    rcases Finset.mem_insert.mp hv with rfl | h
    · exact hext
    · exact inv.done_opt v h
  case rel2 =>
    intro u hu v hv hr
    rcases hr with hne' | hfalse
    · rcases Finset.mem_insert.mp hu with rfl | h
      · exact absurd rfl hne'
      · exact inv.rel u h v hv trivial
    · exact hfalse.elim
  case sm2 =>
    rcases inv.start_mem with h | h
    · exact Or.inl (Finset.mem_insert_of_mem h)
    · by_cases hsc : startId = cur
      · exact Or.inl (hsc ▸ Finset.mem_insert_self cur done)
      · exact Or.inr (inv.open_nodup.mem_erase_iff.mpr ⟨hsc, h⟩)
  case gfin2 =>
    intro v hfin
    rcases inv.gfin v hfin with h | h
    · exact Or.inl (Finset.mem_insert_of_mem h)
    · by_cases hvc : v = cur
      · exact Or.inl (hvc ▸ Finset.mem_insert_self cur done)
      · exact Or.inr (inv.open_nodup.mem_erase_iff.mpr ⟨hvc, h⟩)
  case ofin2 =>
    intro v hv
    exact inv.open_fin v (List.mem_of_mem_erase hv)
  case chn2 =>
    intro v hfin
    obtain ⟨n, hch, hb1, hb2⟩ := inv.chain v hfin
    refine ⟨n, hch, by omega, ?_⟩
    intro hv
    rcases Finset.mem_insert.mp hv with rfl | h
    · omega
    · have := hb2 h
      omega
  case dfin2 =>
    intro v hv
    rcases Finset.mem_insert.mp hv with rfl | h
    · rw [← hext]
      exact inv.open_fin cur hcur_mem
    · exact inv.done_fin v h
  case ed2 =>
    intro h
    rcases Finset.mem_insert.mp h with h' | h'
    · exact hne h'.symm
    · exact inv.end_done h'

theorem initState_gScore (g : AGraph V) (startId endId : V) :
    (initState g startId endId).gScore =
      Function.update (fun _ => (⊤ : WithTop ℝ)) startId ((0:ℝ) : WithTop ℝ) := rfl

theorem initState_fScore (g : AGraph V) (startId endId : V) :
    (initState g startId endId).fScore =
      Function.update (fun _ => (⊤ : WithTop ℝ)) startId
        ((hEuc g endId startId : ℝ) : WithTop ℝ) := rfl

/-- The invariant holds for the initial state. -/
theorem AInv_init {g : AGraph V} {startId endId : V} (hs : startId ∈ keys g) :
    AInvG g startId endId ∅ (fun _ _ => True) (initState g startId endId) := by
  refine { open_sub := ?os3
           open_nodup := List.nodup_singleton startId
           done_sub := fun v hv => absurd hv (Finset.not_mem_empty v)
           disj := fun v hv => absurd hv (Finset.not_mem_empty v)
           g_ge := ?gge3
           cf := fun v u h => Option.noConfusion h
           done_opt := fun v hv => absurd hv (Finset.not_mem_empty v)
           rel := fun u hu => absurd hu (Finset.not_mem_empty u)
           start_mem := Or.inr (List.mem_singleton.mpr rfl)
           gfin := ?gfin3
           fdef := ?fdef3
           open_fin := ?ofin3
           g_start := by
             rw [initState_gScore]
             exact Function.update_same _ _ _
           cf_start := rfl
           chain := ?chn3
           done_fin := fun v hv => absurd hv (Finset.not_mem_empty v)
           end_done := Finset.not_mem_empty endId }
  case os3 =>
    intro v hv
    rw [List.mem_singleton.mp hv]
    exact hs
  case gge3 =>
    intro v
    by_cases hv : v = startId
    · have h0 : (initState g startId endId).gScore v = ((0:ℝ) : WithTop ℝ) := by
        rw [hv, initState_gScore]
        exact Function.update_same _ _ _
      rw [h0, hv, delta_self hs, WithTop.coe_zero]
    · have h0 : (initState g startId endId).gScore v = ⊤ := by
        rw [initState_gScore]
        exact Function.update_noteq hv _ _
      rw [h0]
      exact le_top
  case gfin3 =>
    intro v hfin
    by_cases hv : v = startId
    · refine Or.inr ?_
      rw [hv]
      exact List.mem_singleton.mpr rfl
    · refine absurd ?_ hfin
      rw [initState_gScore]
      exact Function.update_noteq hv _ _
  case fdef3 =>
    intro v
    by_cases hv : v = startId
    · have h0 : (initState g startId endId).gScore v = ((0:ℝ) : WithTop ℝ) := by
        rw [hv, initState_gScore]
        exact Function.update_same _ _ _
      have h1 : (initState g startId endId).fScore v =
          ((hEuc g endId startId : ℝ) : WithTop ℝ) := by
        rw [hv, initState_fScore]
        exact Function.update_same _ _ _
      rw [h0, h1, hv, ← WithTop.coe_add]
      norm_num
    · have h0 : (initState g startId endId).gScore v = ⊤ := by
        rw [initState_gScore]
        exact Function.update_noteq hv _ _
      have h1 : (initState g startId endId).fScore v = ⊤ := by
        rw [initState_fScore]
        exact Function.update_noteq hv _ _
      rw [h0, h1, top_add]
  case ofin3 =>
    intro v hv
    have hveq : v = startId := List.mem_singleton.mp hv
    have h0 : (initState g startId endId).gScore v = ((0:ℝ) : WithTop ℝ) := by
      rw [hveq, initState_gScore]
      exact Function.update_same _ _ _
    rw [h0]
    exact WithTop.coe_ne_top
  case chn3 =>
    intro v hfin
    by_cases hv : v = startId
    · refine ⟨0, ?_, by omega, fun h => absurd h (Finset.not_mem_empty v)⟩
      rw [hv]
      exact CFChain.base rfl
    · refine absurd ?_ hfin
      rw [initState_gScore]
      exact Function.update_noteq hv _ _

/-- Total correctness of the bounded A* loop: with enough fuel it always
returns, with `none` exactly on unreachable goals and otherwise with a
shortest route. -/
theorem astarLoop_correct {g : AGraph V} {startId endId : V}
    (hclosed : ClosedGraph g) (hs : startId ∈ keys g) :
    ∀ (fuel : ℕ) (done : Finset V) (st : AState V),
      AInvG g startId endId done (fun _ _ => True) st →
      (keys g).toFinset.card + 1 ≤ fuel + done.card →
      ∃ r, astarLoop g endId fuel st = some r ∧
        (r = none → delta g startId endId = ⊤) ∧
        (∀ p, r = some p → IsRoute g p startId endId ∧
          ((routeCost g p : ℝ) : WithTop ℝ) = delta g startId endId) := by
  intro fuel
  induction fuel with
  | zero =>
    intro done st inv hf
    exfalso
    have hsub : done ⊆ (keys g).toFinset :=
      fun v hv => List.mem_toFinset.mpr (inv.done_sub v hv)
    have := Finset.card_le_card hsub
    omega
  | succ fuel ih =>
    intro done st inv hf
    cases hopen : st.openSet with
    | nil =>
      refine ⟨none, ?_, ?_, ?_⟩
      · simp only [astarLoop, hopen]
      · intro _
        by_contra hδ
        obtain ⟨y, hy, -⟩ := frontier_node hs
          (fun u hu v hv => inv.rel u hu v hv trivial) inv hδ inv.end_done
        rw [hopen] at hy
        exact absurd hy (List.not_mem_nil y)
      · intro p hp
        exact Option.noConfusion hp
    | cons x xs =>
      have hcur_mem : reduceMinF st.fScore x xs ∈ st.openSet := by
        rw [hopen]
        exact (reduceMinF_spec st.fScore xs x).1
      have hext : st.gScore (reduceMinF st.fScore x xs) =
          delta g startId (reduceMinF st.fScore x xs) :=
        extract_min_opt hs inv x xs hopen
      have hcur_nd : reduceMinF st.fScore x xs ∉ done :=
        fun h => inv.disj _ h hcur_mem
      have hcard_lt : done.card < (keys g).toFinset.card := by
        have hsub : insert (reduceMinF st.fScore x xs) done ⊆ (keys g).toFinset := by
          intro v hv
          rcases Finset.mem_insert.mp hv with rfl | h
          · exact List.mem_toFinset.mpr (inv.open_sub _ hcur_mem)
          · exact List.mem_toFinset.mpr (inv.done_sub v h)
        have h1 := Finset.card_le_card hsub
        rw [Finset.card_insert_of_not_mem hcur_nd] at h1
        omega
      by_cases hend : reduceMinF st.fScore x xs = endId
      · have hfin : st.gScore (reduceMinF st.fScore x xs) ≠ ⊤ :=
          inv.open_fin _ hcur_mem
        obtain ⟨n, hch, hb1, hb2⟩ := inv.chain _ hfin
        have hfuelrec : n ≤ (keys g).length := by
          have h2 : (keys g).toFinset.card ≤ (keys g).length :=
            List.toFinset_card_le (keys g)
          omega
        obtain ⟨q, hq_eq, hq_route, hq_cost⟩ :=
          reconstruct_route inv hs hclosed n _ hch hfin (keys g).length hfuelrec []
        refine ⟨some (reconstruct st.cameFrom (keys g).length
          (reduceMinF st.fScore x xs) [reduceMinF st.fScore x xs]), ?_, ?_, ?_⟩
        · simp only [astarLoop, hopen]
          rw [if_pos hend]
        · intro h
          exact Option.noConfusion h
        · intro p hp
          have hpe : p = reconstruct st.cameFrom (keys g).length
              (reduceMinF st.fScore x xs) [reduceMinF st.fScore x xs] :=
            (Option.some_injective _ hp).symm
          rw [List.append_nil] at hq_eq
          rw [hpe, hq_eq]
          constructor
          · rw [hend] at hq_route
            exact hq_route
          · rw [hq_cost, hext, hend]
      · have hinv_e := extract_inv hs inv x xs hopen hend
        have hinv2 := relaxAll_preserves hclosed
          (Finset.mem_insert_self (reduceMinF st.fScore x xs) done)
          (nd g (reduceMinF st.fScore x xs)).neighbors (fun _ => False)
          { st with openSet := st.openSet.erase (reduceMinF st.fScore x xs) }
          (fun v hv => hv) hinv_e
        have hinv3 : AInvG g startId endId
            (insert (reduceMinF st.fScore x xs) done) (fun _ _ => True)
            (relaxAll g endId (reduceMinF st.fScore x xs)
              { st with openSet := st.openSet.erase (reduceMinF st.fScore x xs) }) := by
          refine hinv2.mono ?_
          intro u hu v hv _
          by_cases huc : u = reduceMinF st.fScore x xs
          · refine Or.inr (Or.inr ?_)
            rw [← huc]
            exact hv
          · exact Or.inl huc
        obtain ⟨r, hr, h1, h2⟩ := ih (insert (reduceMinF st.fScore x xs) done) _
          hinv3 (by rw [Finset.card_insert_of_not_mem hcur_nd]; omega)
        refine ⟨r, ?_, h1, h2⟩
        simp only [astarLoop, hopen]
        rw [if_neg hend]
        rw [show List.erase (x :: xs) (reduceMinF st.fScore x xs) =
          st.openSet.erase (reduceMinF st.fScore x xs) from by rw [hopen]]
        exact hr

/-- C1: on every finite closed graph whose start and goal ids are nodes,
`findPath` returns `null` exactly when the goal is unreachable (no route
exists, i.e. the shortest distance is infinite), and any returned path is an
ordered route from start to goal whose cumulative Euclidean edge length
equals the shortest distance, hence is minimal among all routes. -/
theorem C1_findPath (g : AGraph V) (startId endId : V)
    (hclosed : ClosedGraph g) (hs : startId ∈ keys g) (he : endId ∈ keys g) :
    (findPath g startId endId = none ↔ delta g startId endId = ⊤) ∧
    (delta g startId endId = ⊤ ↔ ¬ ∃ p, IsRoute g p startId endId) ∧
    (∀ p, findPath g startId endId = some p →
      IsRoute g p startId endId ∧
      ((routeCost g p : ℝ) : WithTop ℝ) = delta g startId endId ∧
      ∀ q, IsRoute g q startId endId → routeCost g p ≤ routeCost g q) := by
  have hK : (keys g).toFinset.card + 1 ≤
      ((keys g).length * ((keys g).length + 1) + 2) + (∅ : Finset V).card := by
    have h1 : (keys g).toFinset.card ≤ (keys g).length := List.toFinset_card_le (keys g)
    have h2 : (keys g).length ≤ (keys g).length * ((keys g).length + 1) := by
      nlinarith
    rw [Finset.card_empty]
    omega
  obtain ⟨r, hr, h1, h2⟩ := astarLoop_correct hclosed hs
    ((keys g).length * ((keys g).length + 1) + 2) ∅
    (initState g startId endId) (AInv_init hs) hK
  have hfp : findPath g startId endId = r := by
    simp only [findPath, hr]
  refine ⟨?_, ?_, ?_⟩
  · constructor
    · intro h
      rw [hfp] at h
      exact h1 h
    · intro hδ
      rw [hfp]
      cases r with
      | none => rfl
      | some p =>
        obtain ⟨-, hcost⟩ := h2 p rfl
        rw [hδ] at hcost
        exact absurd hcost WithTop.coe_ne_top
  · constructor
    · intro hδ hex
      obtain ⟨p, hp⟩ := hex
      have hle := delta_le_cost hp
      rw [hδ, top_le_iff] at hle
      exact WithTop.coe_ne_top hle
    · intro hno
      by_contra hδ
      obtain ⟨p, hp, -, -⟩ := delta_attained hδ
      exact hno ⟨p, hp⟩
  · intro p hp
    rw [hfp] at hp
    obtain ⟨hroute, hcost⟩ := h2 p hp
    refine ⟨hroute, hcost, ?_⟩
    intro q hq
    have hle := delta_le_cost hq
    rw [← hcost] at hle
    exact_mod_cast hle

/-- A concrete two-node closed graph: node 0 at the origin and node 1 at
(3, 4), linked both ways by an edge of length 5. -/
def gW : AGraph ℕ := [(0, ⟨0, 0, [1]⟩), (1, ⟨3, 4, [0]⟩)]

theorem gW_closed : ClosedGraph gW := by
  intro i hi j hj
  have hi' : i = 0 ∨ i = 1 := by simpa [keys, gW] using hi
  rcases hi' with rfl | rfl
  · have hj' : j = 1 := by
      have h0 : nd gW 0 = ⟨0, 0, [1]⟩ := rfl
      rw [h0] at hj
      simpa using hj
    rw [hj']
    simp [keys, gW]
  · have hj' : j = 0 := by
      have h0 : nd gW 1 = ⟨3, 4, [0]⟩ := rfl
      rw [h0] at hj
      simpa using hj
    rw [hj']
    simp [keys, gW]

theorem gW_mem0 : (0 : ℕ) ∈ keys gW := by simp [keys, gW]

theorem gW_mem1 : (1 : ℕ) ∈ keys gW := by simp [keys, gW]

/-- Witness for C1 on the concrete graph `gW`. -/
theorem C1_findPath_witness :
    ClosedGraph gW ∧ (0 : ℕ) ∈ keys gW ∧ (1 : ℕ) ∈ keys gW ∧
    ((findPath gW 0 1 = none ↔ delta gW 0 1 = ⊤) ∧
     (delta gW 0 1 = ⊤ ↔ ¬ ∃ p, IsRoute gW p 0 1) ∧
     (∀ p, findPath gW 0 1 = some p →
       IsRoute gW p 0 1 ∧
       ((routeCost gW p : ℝ) : WithTop ℝ) = delta gW 0 1 ∧
       ∀ q, IsRoute gW q 0 1 → routeCost gW p ≤ routeCost gW q)) :=
  ⟨gW_closed, gW_mem0, gW_mem1, C1_findPath gW 0 1 gW_closed gW_mem0 gW_mem1⟩

/-- C10: `findPath`'s loop terminates on every finite closed graph: a node
absent from the open set is (re-)inserted by a relaxation only when its
g-score strictly decreases, and the bounded main loop always returns a
result (`some r`) within the allotted fuel, never exhausting it. -/
theorem C10_termination (g : AGraph V) (startId endId : V)
    (hclosed : ClosedGraph g) (hs : startId ∈ keys g) :
    (∀ (st : AState V) (current nextId : V), nextId ∉ st.openSet →
        nextId ∈ (relaxEdge g endId current st nextId).openSet →
        st.gScore current + ((edgeW g current nextId : ℝ) : WithTop ℝ) <
          st.gScore nextId ∧
        (relaxEdge g endId current st nextId).gScore nextId < st.gScore nextId) ∧
    ∃ r, astarLoop g endId ((keys g).length * ((keys g).length + 1) + 2)
        (initState g startId endId) = some r := by
  constructor
  · intro st current nextId hnotin hin
    by_cases hlt : st.gScore current +
        ((edgeW g current nextId : ℝ) : WithTop ℝ) < st.gScore nextId
    · refine ⟨hlt, ?_⟩
      rw [relaxEdge_pos hlt]
      show Function.update st.gScore nextId
        (st.gScore current + ((edgeW g current nextId : ℝ) : WithTop ℝ)) nextId <
        st.gScore nextId
      rw [Function.update_same]
      exact hlt
    · exfalso
      rw [relaxEdge_neg hlt] at hin
      exact hnotin hin
  · have hK : (keys g).toFinset.card + 1 ≤
        ((keys g).length * ((keys g).length + 1) + 2) + (∅ : Finset V).card := by
      have h1 : (keys g).toFinset.card ≤ (keys g).length := List.toFinset_card_le (keys g)
      have h2 : (keys g).length ≤ (keys g).length * ((keys g).length + 1) := by
        nlinarith
      rw [Finset.card_empty]
      omega
    obtain ⟨r, hr, -⟩ := astarLoop_correct hclosed hs
      ((keys g).length * ((keys g).length + 1) + 2) ∅
      (initState g startId endId) (AInv_init hs) hK
    exact ⟨r, hr⟩

/-- Witness for C10 on the concrete graph `gW`. -/
theorem C10_termination_witness :
    ClosedGraph gW ∧ (0 : ℕ) ∈ keys gW ∧
    ((∀ (st : AState ℕ) (current nextId : ℕ), nextId ∉ st.openSet →
        nextId ∈ (relaxEdge gW 1 current st nextId).openSet →
        st.gScore current + ((edgeW gW current nextId : ℝ) : WithTop ℝ) <
          st.gScore nextId ∧
        (relaxEdge gW 1 current st nextId).gScore nextId < st.gScore nextId) ∧
     ∃ r, astarLoop gW 1 ((keys gW).length * ((keys gW).length + 1) + 2)
        (initState gW 0 1) = some r) :=
  ⟨gW_closed, gW_mem0, C10_termination gW 0 1 gW_closed gW_mem0⟩

end Astar

end NavToolbox
